import Mathlib

/-!
Verification of the CodeAtlas repository: a shallow embedding of the
diagram sanitizing pipeline (`src/core/diagram.py`), the repository
loader (`src/core/repository.py`) and the relevant configuration
constants (`src/config.py`), together with theorems settling the
specification claims.

Text is modelled as `List Char` (Python `str` of the relevant ASCII
subset).  Python whitespace / word-character classes are modelled by
their ASCII parts, which cover every string these functions are applied
to in the program.
-/

namespace CodeAtlas

/-- Text of the program, one Python `str` character per list element. -/
abbrev Text := List Char

/-- Conversion of a Lean string literal to the `Text` model. -/
def s2l (s : String) : Text := s.data

/-- ASCII whitespace, the characters stripped by Python `str.strip()`
and matched by the regex class `\s`. -/
def isSp (c : Char) : Bool :=
  c = ' ' || c = '\t' || c = '\n' || c = '\r' || c = '\x0b' || c = '\x0c'

/-- Python `str.lstrip()`. -/
def lstripL (l : Text) : Text := l.dropWhile isSp

/-- Python `str.rstrip()`. -/
def rstripL (l : Text) : Text := (l.reverse.dropWhile isSp).reverse

/-- Python `str.strip()`. -/
def pstrip (l : Text) : Text := rstripL (lstripL l)

/-- Python `s.split("\n")`. -/
def splitNl : Text → List Text
  | [] => [[]]
  | c :: cs =>
    if c = '\n' then [] :: splitNl cs
    else
      match splitNl cs with
      | [] => [[c]]
      | l :: ls => (c :: l) :: ls

/-- Python `"\n".join(ls)`. -/
def joinNl : List Text → Text
  | [] => []
  | [l] => l
  | l :: ls => l ++ '\n' :: joinNl ls

/-- Number of occurrences of `c` in `l` (Python `str.count` of a single
character). -/
def countChar (c : Char) (l : Text) : Nat :=
  l.countP (· = c)

/-- Number of start positions of `l` (including the final empty suffix)
at which the pattern `p` occurs. -/
def countSub (p : Text) : Text → Nat
  | [] => if p.isEmpty then 1 else 0
  | c :: t => (if p.isPrefixOf (c :: t) then 1 else 0) + countSub p t

/-- Python substring membership `p in l`. -/
def containsStr (p : Text) : Text → Bool
  | [] => p.isEmpty
  | c :: t => p.isPrefixOf (c :: t) || containsStr p t

/-- Python `s.endswith(p)`. -/
def endsWithL (p l : Text) : Bool := p.isSuffixOf l

/-- Python `s.lower()` (ASCII). -/
def lowerL (l : Text) : Text := l.map Char.toLower

/- ### Basic lemmas about the text utilities -/

theorem splitNl_ne_nil (l : Text) : splitNl l ≠ [] := by
  induction l with
  | nil => simp [splitNl]
  | cons c cs ih =>
    simp only [splitNl]
    split
    · simp
    · cases h : splitNl cs with
      | nil => simp
      | cons a as => simp

theorem joinNl_splitNl (l : Text) : joinNl (splitNl l) = l := by
  induction l with
  | nil => rfl
  | cons c cs ih =>
    simp only [splitNl]
    split
    · rename_i h
      subst h
      cases h2 : splitNl cs with
      | nil => exact absurd h2 (splitNl_ne_nil cs)
      | cons a as =>
        rw [h2] at ih
        simp [joinNl, ih]
    · cases h2 : splitNl cs with
      | nil => exact absurd h2 (splitNl_ne_nil cs)
      | cons a as =>
        rw [h2] at ih
        cases as with
        | nil => simp_all [joinNl]
        | cons b bs => simp_all [joinNl]

theorem splitNl_append_cons (a b : Text) :
    splitNl (a ++ '\n' :: b) = splitNl a ++ splitNl b := by
  induction a with
  | nil => simp [splitNl]
  | cons c cs ih =>
    simp only [List.cons_append, splitNl]
    by_cases hc : c = '\n'
    · simp [hc, ih]
    · simp only [if_neg hc, List.append_eq]
      rw [ih]
      cases h : splitNl cs with
      | nil => exact absurd h (splitNl_ne_nil cs)
      | cons x xs => simp

theorem splitNl_of_no_nl (l : Text) (h : '\n' ∉ l) : splitNl l = [l] := by
  induction l with
  | nil => rfl
  | cons c cs ih =>
    simp only [List.mem_cons, not_or] at h
    have hc : ¬ c = '\n' := fun hh => h.1 hh.symm
    rw [splitNl, if_neg hc, ih h.2]

theorem joinNl_cons (l : Text) (ls : List Text) (h : ls ≠ []) :
    joinNl (l :: ls) = l ++ '\n' :: joinNl ls := by
  cases ls with
  | nil => exact absurd rfl h
  | cons a as => rfl

theorem joinNl_append (a b : List Text) (hb : b ≠ []) :
    joinNl (a ++ b) = joinNl a ++ (if a = [] then [] else ['\n']) ++ joinNl b := by
  induction a with
  | nil => simp [joinNl]
  | cons x xs ih =>
    cases xs with
    | nil =>
      rw [List.singleton_append, joinNl_cons x b hb]
      simp [joinNl]
    | cons z zs =>
      rw [List.cons_append, joinNl_cons x _ (by simp),
        joinNl_cons x _ (by simp), ih]
      simp [List.append_assoc]

theorem countSub_nil_pat (l : Text) : countSub [] l = l.length + 1 := by
  induction l with
  | nil => rfl
  | cons c t ih =>
    simp [countSub, ih, List.isPrefixOf]
    omega

theorem countSub_le_append_left (p u t : Text) :
    countSub p t ≤ countSub p (u ++ t) := by
  induction u with
  | nil => simp
  | cons a u ih =>
    calc countSub p t ≤ countSub p (u ++ t) := ih
    _ ≤ countSub p (a :: (u ++ t)) := by
        cases hp : p with
        | nil => simp [countSub_nil_pat]
        | cons x xs => simp [countSub]

theorem isPrefixOf_append (p s v : Text) (h : p.isPrefixOf s = true) :
    p.isPrefixOf (s ++ v) = true := by
  rw [List.isPrefixOf_iff_prefix] at h ⊢
  exact h.trans (List.prefix_append s v)

theorem countSub_le_append_right (p t v : Text) :
    countSub p t ≤ countSub p (t ++ v) := by
  induction t with
  | nil =>
    cases hp : p with
    | nil => simp [countSub, countSub_nil_pat]
    | cons x xs => simp [countSub]
  | cons c t ih =>
    simp only [List.cons_append, countSub, List.append_eq]
    have : (if p.isPrefixOf (c :: (t ++ v)) then 1 else 0) ≥
        (if p.isPrefixOf (c :: t) then 1 else 0) := by
      by_cases h : p.isPrefixOf (c :: t) = true
      · have h2 := isPrefixOf_append p (c :: t) v h
        simp only [List.cons_append] at h2
        rw [if_pos h, if_pos h2]
      · simp [h]
    omega

theorem isPrefixOf_append_cons (p w v : Text) (c : Char) (hc : c ∉ p) :
    p.isPrefixOf (w ++ c :: v) = p.isPrefixOf w := by
  induction p generalizing w with
  | nil => simp [List.isPrefixOf]
  | cons x xs ih =>
    cases w with
    | nil =>
      have hx : (x == c) = false := by
        simp only [beq_eq_false_iff_ne, ne_eq]
        intro h
        exact hc (by simp [h])
      simp [List.isPrefixOf, hx]
    | cons b w =>
      simp only [List.cons_append, List.isPrefixOf, List.append_eq]
      rw [ih w (fun h => hc (List.mem_cons_of_mem x h))]

theorem countSub_append_cons (p u v : Text) (c : Char)
    (hp : p ≠ []) (hc : c ∉ p) :
    countSub p (u ++ c :: v) = countSub p u + countSub p v := by
  induction u with
  | nil =>
    cases p with
    | nil => exact absurd rfl hp
    | cons x xs =>
      have h := isPrefixOf_append_cons (x :: xs) [] v c hc
      rw [List.nil_append] at h
      simp only [countSub, h]
      simp [List.isPrefixOf]
  | cons a u ih =>
    have hpre := isPrefixOf_append_cons p (a :: u) v c hc
    rw [List.cons_append] at hpre
    simp only [List.cons_append, List.append_eq, countSub, ih, hpre]
    omega

/-- The pattern `p` occurs as a contiguous substring of `l`. -/
def OccursIn (p l : Text) : Prop := ∃ u v, l = u ++ p ++ v

theorem countSub_ne_zero_iff (p l : Text) :
    countSub p l ≠ 0 ↔ OccursIn p l := by
  induction l with
  | nil =>
    constructor
    · intro h
      cases hp : p with
      | nil => exact ⟨[], [], rfl⟩
      | cons x xs => simp [countSub, hp] at h
    · rintro ⟨u, v, huv⟩
      have hu : u = [] := by
        cases u <;> simp_all
      have hp : p = [] := by
        subst hu
        cases p <;> simp_all
      simp [countSub, hp]
  | cons c t ih =>
    constructor
    · intro h
      simp only [countSub] at h
      by_cases hpre : p.isPrefixOf (c :: t) = true
      · rw [List.isPrefixOf_iff_prefix] at hpre
        obtain ⟨w, hw⟩ := hpre
        exact ⟨[], w, by simp [hw.symm]⟩
      · simp only [hpre, if_false] at h
        obtain ⟨u, v, huv⟩ := ih.mp (by simpa using h)
        exact ⟨c :: u, v, by simp [huv]⟩
    · rintro ⟨u, v, huv⟩
      cases u with
      | nil =>
        have hpre : p.isPrefixOf (c :: t) = true := by
          rw [List.isPrefixOf_iff_prefix]
          exact ⟨v, by simpa using huv.symm⟩
        simp [countSub, hpre]
      | cons a u =>
        have hct := huv
        simp only [List.cons_append, List.append_assoc, List.cons.injEq] at hct
        have : OccursIn p t := ⟨u, v, by simp [List.append_assoc, hct.2]⟩
        have := ih.mpr this
        simp only [countSub]
        omega

theorem containsStr_iff (p l : Text) :
    containsStr p l = true ↔ countSub p l ≠ 0 := by
  induction l with
  | nil =>
    cases p with
    | nil => simp [containsStr, countSub]
    | cons x xs => simp [containsStr, countSub]
  | cons c t ih =>
    simp only [containsStr, countSub, Bool.or_eq_true, ih]
    by_cases hpre : p.isPrefixOf (c :: t) = true
    · simp [hpre]
    · simp [hpre]

/-- An occurrence of `"digraph"` yields an occurrence of `"graph"`:
if `"graph"` does not occur then neither does `"digraph"`. -/
theorem countSub_digraph_zero (l : Text) (h : countSub (s2l "graph") l = 0) :
    countSub (s2l "digraph") l = 0 := by
  by_contra hne
  obtain ⟨u, v, huv⟩ := (countSub_ne_zero_iff _ l).mp hne
  have : OccursIn (s2l "graph") l :=
    ⟨u ++ s2l "di", v, by simp [huv, s2l, List.append_assoc]⟩
  exact ((countSub_ne_zero_iff _ l).mpr this) h

theorem countSub_joinNl (p : Text) (ls : List Text)
    (hp : p ≠ []) (hnl : '\n' ∉ p) :
    countSub p (joinNl ls) = (ls.map (countSub p)).sum := by
  induction ls with
  | nil =>
    cases p with
    | nil => exact absurd rfl hp
    | cons x xs => simp [joinNl, countSub]
  | cons l ls ih =>
    cases ls with
    | nil => simp [joinNl]
    | cons m ms =>
      rw [joinNl_cons l (m :: ms) (by simp),
        countSub_append_cons p l (joinNl (m :: ms)) '\n' hp hnl, ih]
      simp

theorem countSub_lstripL_le (p l : Text) :
    countSub p (lstripL l) ≤ countSub p l := by
  conv_rhs => rw [← List.takeWhile_append_dropWhile isSp l]
  exact countSub_le_append_left p _ _

theorem countSub_rstripL_le (p l : Text) :
    countSub p (rstripL l) ≤ countSub p l := by
  have hdecomp : l = rstripL l ++ (l.reverse.takeWhile isSp).reverse := by
    have h2 := congrArg List.reverse
      (List.takeWhile_append_dropWhile isSp l.reverse)
    rw [List.reverse_append, List.reverse_reverse] at h2
    rw [rstripL]
    exact h2.symm
  conv_rhs => rw [hdecomp]
  exact countSub_le_append_right p _ _

theorem countSub_pstrip_le (p l : Text) :
    countSub p (pstrip l) ≤ countSub p l :=
  le_trans (countSub_rstripL_le p (lstripL l)) (countSub_lstripL_le p l)

/- ### Diagram generator, `src/core/diagram.py` -/

/-- `if lines[0].startswith("```"): lines = lines[1:]`. -/
def fenceDropHead (lines : List Text) : List Text :=
  if (s2l "```").isPrefixOf (lines.headD []) then lines.tail else lines

/-- `if lines and lines[-1].strip() == "```": lines = lines[:-1]`. -/
def fenceDropLast (lines1 : List Text) : List Text :=
  match lines1.getLast? with
  | some lastLine =>
    if pstrip lastLine = s2l "```" then lines1.dropLast else lines1
  | none => lines1

/-- The markdown-fence unwrap part of `DiagramGenerator._prepare_dot`
(lines 137-146): strip the text, then drop a leading fence line and a
trailing bare ` ``` ` line. -/
def unwrapFence (s : Text) : Text :=
  let t := pstrip s
  if (s2l "```").isPrefixOf t then
    joinNl (fenceDropLast (fenceDropHead (splitNl t)))
  else t

/-- `DiagramGenerator._prepare_dot`: unwrap markdown fences, then wrap
in a `digraph G` container when no graph keyword is present. -/
def prepareDot (s : Text) : Text :=
  let t := unwrapFence s
  if !containsStr (s2l "digraph") t && !containsStr (s2l "graph") t then
    s2l "digraph G \x7b\n" ++ t ++ s2l "\n\x7d"
  else t

/-- The rate-limit error check at the top of
`DiagramGenerator._sanitize_dot`. -/
def errorish (s : Text) : Bool :=
  containsStr (s2l "Error") s &&
    (containsStr (s2l "429") s || containsStr (s2l "RESOURCE_EXHAUSTED") s ||
      containsStr (s2l "quota") s)

/-- `re.sub(r"<[^>]+>", "", line)`: remove HTML-like tags.  The regex
match is deterministic: at a `<`, the tag body is the maximal nonempty
run of non-`>` characters, which must be followed by `>`
(`run.length < cs.length` states that the run stopped at a `>`).  The
scan is fuel-driven so that it is structurally recursive; every step
consumes at least one character, so fuel `l.length` always suffices. -/
def stripTagsAux : Nat → Text → Text
  | 0, l => l
  | _ + 1, [] => []
  | fuel + 1, c :: cs =>
    let run := cs.takeWhile (fun x => x != '>')
    if c = '<' ∧ ¬ run.isEmpty ∧ run.length < cs.length then
      stripTagsAux fuel (cs.drop (run.length + 1))
    else c :: stripTagsAux fuel cs

def stripTags (l : Text) : Text := stripTagsAux l.length l

/-- Python `stripped.split("->")` (fuel-driven scan). -/
def splitArrowAux : Nat → Text → List Text
  | 0, l => [l]
  | _ + 1, [] => [[]]
  | fuel + 1, c :: cs =>
    if (s2l "->").isPrefixOf (c :: cs) then
      [] :: splitArrowAux fuel (cs.drop 1)
    else
      match splitArrowAux fuel cs with
      | [] => [[c]]
      | x :: xs => (c :: x) :: xs

def splitArrow (l : Text) : List Text := splitArrowAux l.length l

/-- One pass of the `_sanitize_dot` loop over the enumerated lines:
`n` is the total number of lines, `i` the current index, the `Int`
accumulator the running open-minus-close brace count.  Returns the kept
(possibly repaired) lines and the final brace count. -/
def sanitizeLines (n : Nat) : Nat → Int → List Text → List Text × Int
  | _, bc, [] => ([], bc)
  | i, bc, line :: rest =>
    let stripped := pstrip line
    if stripped.isEmpty || (s2l "//").isPrefixOf stripped ||
        (s2l "#").isPrefixOf stripped then
      let r := sanitizeLines n (i + 1) bc rest
      (line :: r.1, r.2)
    else
      let bc1 := bc + (countChar '\x7b' line : Int) - (countChar '\x7d' line : Int)
      let line1 := stripTags line
      if n - 3 ≤ i then
        if endsWithL (s2l "->") stripped || endsWithL (s2l "->") (rstripL stripped) then
          sanitizeLines n (i + 1) bc1 rest
        else if containsStr (s2l "->") stripped && !endsWithL (s2l ";") stripped &&
            !containsStr (s2l "[") stripped &&
            decide ((splitArrow stripped).length = 2) &&
            (pstrip ((splitArrow stripped).getD 1 [])).isEmpty then
          sanitizeLines n (i + 1) bc1 rest
        else
          let line2 :=
            if countChar '\x22' stripped % 2 = 1 then rstripL line1 ++ s2l "\x22];"
            else line1
          let r := sanitizeLines n (i + 1) bc1 rest
          (line2 :: r.1, r.2)
      else
        let r := sanitizeLines n (i + 1) bc1 rest
        (line1 :: r.1, r.2)

/-- `DiagramGenerator._sanitize_dot`; `none` models the `ValueError`
raised on rate-limit error text. -/
def sanitizeDot (s : Text) : Option Text :=
  if errorish s then none
  else
    let lines := splitNl s
    let r := sanitizeLines lines.length 0 0 lines
    let result := joinNl r.1
    if 0 < r.2 then some (result ++ '\n' :: List.replicate r.2.toNat '\x7d')
    else some result

/-- ASCII model of the regex class `\w`. -/
def isWordCh (c : Char) : Bool := c.isAlpha || c.isDigit || c = '_'

/-- The regex class `[\d.]`. -/
def isDigitDot (c : Char) : Bool := c.isDigit || c = '.'

/-- Match, at the start of `l`, the regex `lit\s*=\s*R+\s*;?` where `R`
is the class `sat`; return the rest of the text after the match. -/
def matchAttr (lit : Text) (sat : Char → Bool) (l : Text) : Option Text :=
  if lit.isPrefixOf l then
    match (l.drop lit.length).dropWhile isSp with
    | '=' :: r2 =>
      let r3 := r2.dropWhile isSp
      let run := r3.takeWhile sat
      if run.isEmpty then none
      else
        match (r3.drop run.length).dropWhile isSp with
        | ';' :: r5 => some r5
        | r4 => some r4
    | _ => none
  else none

/-- `re.sub` of `lit\s*=\s*R+\s*;?` by the empty string, scanning left
to right (fuel-driven; `l.length` fuel always suffices since every
match consumes at least one character). -/
def subAttrAux (lit : Text) (sat : Char → Bool) : Nat → Text → Text
  | 0, l => l
  | _ + 1, [] => []
  | fuel + 1, c :: cs =>
    match matchAttr lit sat (c :: cs) with
    | some rest => subAttrAux lit sat fuel rest
    | none => c :: subAttrAux lit sat fuel cs

def subAttr (lit : Text) (sat : Char → Bool) (l : Text) : Text :=
  subAttrAux lit sat l.length l

/-- `LayoutOptions` of `src/core/diagram.py`.  The numeric fields are
modelled by their Python decimal renderings, which is how they are
interpolated into the DOT source. -/
structure LayoutOptions where
  direction : Text
  splines : Text
  nodesep : Text
  ranksep : Text
  zoom : Text

/-- The `layout_settings` f-string interpolated in `_apply_layout`. -/
def layoutSettings (layout : LayoutOptions) : Text :=
  s2l "\n    rankdir=" ++ layout.direction ++
  s2l ";\n    splines=" ++ layout.splines ++
  s2l ";\n    nodesep=" ++ layout.nodesep ++
  s2l ";\n    ranksep=" ++ layout.ranksep ++
  s2l ";\n    pad=0.5;\n    node [shape=box, style=\x22rounded,filled\x22, fontname=\x22Helvetica\x22, fontsize=12, width=2.0, height=0.6, margin=\x220.2,0.1\x22];\n    edge [fontname=\x22Helvetica\x22, fontsize=10, arrowsize=0.8];\n"

/-- Python `dot_source.replace("\x7b", "\x7b" + layout_settings, 1)`. -/
def replaceFirstBrace (settings : Text) : Text → Text
  | [] => []
  | c :: cs =>
    if c = '\x7b' then c :: (settings ++ cs)
    else c :: replaceFirstBrace settings cs

/-- Python `line.replace("label=", "xlabel=")` (all occurrences),
fuel-driven scan. -/
def replaceLabelAux : Nat → Text → Text
  | 0, l => l
  | _ + 1, [] => []
  | fuel + 1, c :: cs =>
    if (s2l "label=").isPrefixOf (c :: cs) then
      s2l "xlabel=" ++ replaceLabelAux fuel ((c :: cs).drop 6)
    else c :: replaceLabelAux fuel cs

/-- The per-line `label=` to `xlabel=` rewrite applied for ortho splines. -/
def orthoLine (line : Text) : Text :=
  if containsStr (s2l "->") line && containsStr (s2l "label=") line &&
      !containsStr (s2l "xlabel=") line then
    replaceLabelAux line.length line
  else line

/-- `DiagramGenerator._apply_layout`. -/
def applyLayout (s : Text) (layout : LayoutOptions) : Text :=
  let s1 := subAttr (s2l "rankdir") isWordCh s
  let s2 := subAttr (s2l "splines") isWordCh s1
  let s3 := subAttr (s2l "nodesep") isDigitDot s2
  let s4 := subAttr (s2l "ranksep") isDigitDot s3
  let s5 := replaceFirstBrace (layoutSettings layout) s4
  if layout.splines = s2l "ortho" then joinNl ((splitNl s5).map orthoLine)
  else s5

/-- Lazy search used by the `<svg([^>]*?)width="..."` substitution:
find the shortest run of non-`>` characters followed by the literal
`width="`; returns the run and the rest after the literal. -/
def svgMidSearch : Text → Option (Text × Text)
  | [] => none
  | c :: cs =>
    if (s2l "width=\x22").isPrefixOf (c :: cs) then some ([], (c :: cs).drop 7)
    else if c = '>' then none
    else
      match svgMidSearch cs with
      | some (m, rest) => some (c :: m, rest)
      | none => none

/-- Match `<svg([^>]*?)width="[^"]*"` at the start of `l`; returns the
captured group and the rest after the closing quote. -/
def matchSvgWidth (l : Text) : Option (Text × Text) :=
  if (s2l "<svg").isPrefixOf l then
    match svgMidSearch (l.drop 4) with
    | some (mid, r1) =>
      match r1.dropWhile (fun x => x != '\x22') with
      | '\x22' :: r2 => some (mid, r2)
      | _ => none
    | none => none
  else none

/-- `re.sub(r'<svg([^>]*?)width="[^"]*"', r'<svg\1width="100%"', svg)`. -/
def subSvgWidthAux : Nat → Text → Text
  | 0, l => l
  | _ + 1, [] => []
  | fuel + 1, c :: cs =>
    match matchSvgWidth (c :: cs) with
    | some (mid, rest) =>
      s2l "<svg" ++ mid ++ s2l "width=\x22100%\x22" ++ subSvgWidthAux fuel rest
    | none => c :: subSvgWidthAux fuel cs

/-- `re.sub(r'height="[^"]*"', 'height="auto"', svg, count=1)`. -/
def subHeightOnce : Text → Text
  | [] => []
  | c :: cs =>
    if (s2l "height=\x22").isPrefixOf (c :: cs) then
      match ((c :: cs).drop 8).dropWhile (fun x => x != '\x22') with
      | '\x22' :: r2 => s2l "height=\x22auto\x22" ++ r2
      | _ => c :: subHeightOnce cs
    else c :: subHeightOnce cs

/-- `DiagramGenerator._wrap_svg`. -/
def wrapSvg (svg : Text) (zoom : Text) : Text :=
  let s1 := subSvgWidthAux svg.length svg
  let s2 := subHeightOnce s1
  let transform :=
    if zoom ≠ s2l "1.0" then
      s2l "style=\x22transform: scale(" ++ zoom ++
        s2l "); transform-origin: top left;\x22"
    else []
  s2l "<div class=\x22diagram-box\x22>\n            <div class=\x22diagram-inner\x22 " ++
    transform ++ s2l ">\n                " ++ s2 ++
    s2l "\n            </div>\n        </div>"

/-- `DiagramGenerator._error_html`. -/
def errorHtml (message : Text) : Text :=
  s2l "<div style=\x22color:#dc2626; padding:20px; text-align:center;\x22>\n            <strong>‚ö†Ô∏è " ++
    message ++ s2l "</strong>\n        </div>"

/-- `DiagramGenerator._fallback_html`. -/
def fallbackHtml (content : Text) (error : Option Text) : Text :=
  let errorMsg :=
    match error with
    | some e =>
      if e ≠ [] then
        s2l "<p style=\x27color: #dc2626;\x27>Rendering error: " ++ e ++ s2l "</p>"
      else []
    | none => []
  s2l "<div style=\x22background: #f9fafb; padding: 1.5rem; border-radius: 12px;\x22>\n            <strong>üìä Architecture (Text View)</strong>\n            " ++
    errorMsg ++
    s2l "\n            <pre style=\x22background: #fff; padding: 1rem; border-radius: 8px; overflow-x: auto;\x22>" ++
    content.take 2000 ++ s2l "</pre>\n        </div>"

/-- `DiagramGenerator.render`, with the external Graphviz renderer
modelled as an oracle `renderSvg` (exceptions as `Except.error`); the
history-save side effect is I/O and does not affect the returned HTML.
Graphviz is modelled as available. -/
def render (renderSvg : Text → Except Text Text) (dotSource : Text)
    (layout : LayoutOptions) : Text :=
  if (s2l "Error:").isPrefixOf dotSource then errorHtml dotSource
  else
    let prepared := prepareDot dotSource
    match sanitizeDot prepared with
    | none =>
      fallbackHtml prepared
        (some (s2l "Rate limited - received error instead of diagram"))
    | some sanitized =>
      let laidOut := applyLayout sanitized layout
      match renderSvg laidOut with
      | Except.error e => fallbackHtml laidOut (some e)
      | Except.ok svg => wrapSvg svg layout.zoom

theorem length_takeWhile_le_self (p : Char → Bool) (l : Text) :
    (l.takeWhile p).length ≤ l.length :=
  (List.takeWhile_sublist p).length_le

theorem length_dropWhile_le_self (p : Char → Bool) (l : Text) :
    (l.dropWhile p).length ≤ l.length :=
  (List.dropWhile_sublist p).length_le

theorem length_pos_of_not_isEmpty (l : Text) (h : l.isEmpty = false) :
    0 < l.length := by
  cases l with
  | nil => simp at h
  | cons a t => simp

/-- The token alternation `(?:"[^"]+"|[\w]+)` of the edge regex in
`_count_nodes_edges`, matched at the start of `l`: returns the node
name (the quoted body, or the word run) and the rest.  In the quoted
branch, the run `q` of non-quote characters is nonempty and must be
followed by a closing quote; `q.length < cs.length` states exactly that
the run stopped at a `"` rather than at the end of the text. -/
def matchToken (l : Text) : Option (Text × Text) :=
  match l with
  | [] => none
  | c :: cs =>
    if c = '\x22' then
      let q := cs.takeWhile (fun x => x != '\x22')
      if q.isEmpty then none
      else if q.length < cs.length then some (q, cs.drop (q.length + 1))
      else none
    else
      let w := (c :: cs).takeWhile isWordCh
      if w.isEmpty then none else some (w, (c :: cs).drop w.length)

theorem matchToken_rest_lt (l t r : Text) (h : matchToken l = some (t, r)) :
    r.length < l.length := by
  match l with
  | [] => simp [matchToken] at h
  | c :: cs =>
    simp only [matchToken] at h
    by_cases hc : c = '\x22'
    · rw [if_pos hc] at h
      by_cases hq : (cs.takeWhile (fun x => x != '\x22')).isEmpty = true
      · rw [if_pos hq] at h
        exact absurd h (by simp)
      · rw [if_neg hq] at h
        by_cases hlt : (cs.takeWhile (fun x => x != '\x22')).length < cs.length
        · rw [if_pos hlt] at h
          simp only [Option.some.injEq, Prod.mk.injEq] at h
          obtain ⟨h1, h2⟩ := h
          subst h2
          simp only [List.length_drop, List.length_cons]
          omega
        · rw [if_neg hlt] at h
          exact absurd h (by simp)
    · rw [if_neg hc] at h
      by_cases hw : ((c :: cs).takeWhile isWordCh).isEmpty = true
      · rw [if_pos hw] at h
        exact absurd h (by simp)
      · rw [if_neg hw] at h
        simp only [Option.some.injEq, Prod.mk.injEq] at h
        obtain ⟨h1, h2⟩ := h
        subst h2
        have h3 := length_pos_of_not_isEmpty ((c :: cs).takeWhile isWordCh)
          (by simpa using hw)
        have h4 := length_takeWhile_le_self isWordCh (c :: cs)
        simp only [List.length_drop, List.length_cons] at h3 h4 ⊢
        omega

/-- One match of the edge regex
`(?:"[^"]+"|[\w]+)\s*->\s*(?:"[^"]+"|[\w]+)` at the start of `l`:
returns the two endpoint names and the rest after the match. -/
def matchEdgeAt (l : Text) : Option (Text × Text × Text) :=
  match matchToken l with
  | none => none
  | some (t1, r1) =>
    match r1.dropWhile isSp with
    | '-' :: '>' :: r3 =>
      match matchToken (r3.dropWhile isSp) with
      | none => none
      | some (t2, r5) => some (t1, t2, r5)
    | _ => none

theorem matchEdgeAt_rest_lt (l t1 t2 r : Text)
    (h : matchEdgeAt l = some (t1, t2, r)) : r.length < l.length := by
  simp only [matchEdgeAt] at h
  split at h
  · simp at h
  · rename_i a r1 heq1
    have h1 := matchToken_rest_lt l a r1 heq1
    split at h
    · rename_i r3 heq3
      split at h
      · simp at h
      · rename_i b r5 heq5
        have h5 := matchToken_rest_lt _ b r5 heq5
        cases h
        have h2 := length_dropWhile_le_self isSp r1
        have h3 := length_dropWhile_le_self isSp r3
        rw [heq3] at h2
        simp only [List.length_cons] at h2
        omega
    · simp at h

/-- The findall scan of the edge regex over the whole text, non
overlapping, left to right.  Fuel-driven; since every successful match
consumes at least one character (`matchEdgeAt_rest_lt`), fuel
`l.length` always suffices. -/
def findEdgesAux : Nat → Text → List (Text × Text)
  | 0, _ => []
  | _ + 1, [] => []
  | fuel + 1, c :: cs =>
    match matchEdgeAt (c :: cs) with
    | some (t1, t2, rest) => (t1, t2) :: findEdgesAux fuel rest
    | none => findEdgesAux fuel cs

def findEdges (l : Text) : List (Text × Text) := findEdgesAux l.length l

/-- Match of `\s*"([^"]+)"\s*\[` at the start of `l` (the `^` anchor is
handled by the scanner). -/
def matchQuotedDef (l : Text) : Option (Text × Text) :=
  match l.dropWhile isSp with
  | '\x22' :: cs =>
    let q := cs.takeWhile (fun x => x != '\x22')
    if q.isEmpty then none
    else if q.length < cs.length then
      match (cs.drop (q.length + 1)).dropWhile isSp with
      | '[' :: r3 => some (q, r3)
      | _ => none
    else none
  | _ => none

theorem matchQuotedDef_rest_lt (l q r : Text)
    (h : matchQuotedDef l = some (q, r)) : r.length < l.length := by
  simp only [matchQuotedDef] at h
  split at h
  · rename_i cs heq0
    have h0 := length_dropWhile_le_self isSp l
    rw [heq0] at h0
    simp only [List.length_cons] at h0
    split at h
    · exact absurd h (by simp)
    · split at h
      · split at h
        · rename_i hlt r3 heq3
          simp only [Option.some.injEq, Prod.mk.injEq] at h
          obtain ⟨h1, h2⟩ := h
          subst h2
          have h3 := length_dropWhile_le_self isSp
            (cs.drop ((cs.takeWhile (fun x => x != '\x22')).length + 1))
          rw [heq3] at h3
          simp only [List.length_cons, List.length_drop] at h3
          omega
        · exact absurd h (by simp)
      · exact absurd h (by simp)
  · exact absurd h (by simp)

/-- Match of `\s*(\w+)\s*\[` at the start of `l`. -/
def matchWordDef (l : Text) : Option (Text × Text) :=
  let r1 := l.dropWhile isSp
  let w := r1.takeWhile isWordCh
  if w.isEmpty then none
  else
    match (r1.drop w.length).dropWhile isSp with
    | '[' :: r3 => some (w, r3)
    | _ => none

theorem matchWordDef_rest_lt (l w r : Text)
    (h : matchWordDef l = some (w, r)) : r.length < l.length := by
  simp only [matchWordDef] at h
  by_cases hw : ((l.dropWhile isSp).takeWhile isWordCh).isEmpty = true
  · rw [if_pos hw] at h
    exact absurd h (by simp)
  · rw [if_neg hw] at h
    split at h
    · rename_i r3 heq3
      simp only [Option.some.injEq, Prod.mk.injEq] at h
      obtain ⟨h1, h2⟩ := h
      subst h2
      have h0 := length_dropWhile_le_self isSp l
      have hw2 : ((l.dropWhile isSp).takeWhile isWordCh).isEmpty = false := by
        cases hb : ((l.dropWhile isSp).takeWhile isWordCh).isEmpty with
        | false => rfl
        | true => exact absurd hb hw
      have hpos := length_pos_of_not_isEmpty _ hw2
      have h3 := length_dropWhile_le_self isSp ((l.dropWhile isSp).drop
        ((l.dropWhile isSp).takeWhile isWordCh).length)
      rw [heq3] at h3
      simp only [List.length_cons, List.length_drop] at h3
      omega
    · exact absurd h (by simp)

/-- The `re.MULTILINE` findall scan for `^\s*"([^"]+)"\s*\[`; `atStart`
records whether the current position is a line start.  Fuel-driven;
fuel `l.length` always suffices (`matchQuotedDef_rest_lt`). -/
def scanQuotedDefsAux : Nat → Text → Bool → List Text
  | 0, _, _ => []
  | _ + 1, [], _ => []
  | fuel + 1, c :: cs, atStart =>
    if atStart then
      match matchQuotedDef (c :: cs) with
      | some (q, rest) => q :: scanQuotedDefsAux fuel rest false
      | none => scanQuotedDefsAux fuel cs (c == '\n')
    else scanQuotedDefsAux fuel cs (c == '\n')

def scanQuotedDefs (l : Text) (atStart : Bool) : List Text :=
  scanQuotedDefsAux l.length l atStart

/-- The `re.MULTILINE` findall scan for `^\s*(\w+)\s*\[`. -/
def scanWordDefsAux : Nat → Text → Bool → List Text
  | 0, _, _ => []
  | _ + 1, [], _ => []
  | fuel + 1, c :: cs, atStart =>
    if atStart then
      match matchWordDef (c :: cs) with
      | some (w, rest) => w :: scanWordDefsAux fuel rest false
      | none => scanWordDefsAux fuel cs (c == '\n')
    else scanWordDefsAux fuel cs (c == '\n')

def scanWordDefs (l : Text) (atStart : Bool) : List Text :=
  scanWordDefsAux l.length l atStart

/-- The reserved keyword set of `_count_nodes_edges`. -/
def dotKeywords : List Text :=
  [s2l "digraph", s2l "graph", s2l "subgraph", s2l "node", s2l "edge",
   s2l "rankdir", s2l "splines", s2l "nodesep", s2l "ranksep", s2l "label",
   s2l "style", s2l "shape", s2l "color", s2l "fillcolor", s2l "fontname",
   s2l "fontsize", s2l "margin", s2l "pad", s2l "width", s2l "height",
   s2l "arrowsize", s2l "cluster", s2l "tb", s2l "lr", s2l "bt", s2l "rl"]

/-- Python `w.isdigit()` (ASCII). -/
def isDigits (w : Text) : Bool := !w.isEmpty && w.all Char.isDigit

/-- The keyword/number exclusion applied to candidate node names. -/
def keywordDigitOk (w : Text) : Bool :=
  !(dotKeywords.contains (lowerL w)) && !(isDigits w)

/-- `DiagramGenerator._count_nodes_edges`: `(node count, edge count)`. -/
def countNodesEdges (t : Text) : Nat × Nat :=
  let edges := findEdges t
  let quoted := scanQuotedDefs t true
  let unquoted := (scanWordDefs t true).filter keywordDigitOk
  let edgeNames :=
    (edges.flatMap (fun p => [p.1, p.2])).filter
      (fun w => !w.isEmpty && keywordDigitOk w)
  ((quoted ++ unquoted ++ edgeNames).dedup.length, edges.length)

/- ### Configuration constants, `src/config.py` (`ProcessingConfig`) -/

def ALLOWED_EXTENSIONS : List Text :=
  [s2l ".py", s2l ".js", s2l ".ts", s2l ".jsx", s2l ".tsx", s2l ".java",
   s2l ".cpp", s2l ".c", s2l ".h", s2l ".cs", s2l ".go", s2l ".rs",
   s2l ".php", s2l ".rb", s2l ".sql", s2l ".yaml", s2l ".yml", s2l ".json",
   s2l ".md", s2l ".txt", s2l ".sh", s2l ".bash", s2l ".zsh"]

def ALLOWED_FILES : List Text :=
  [s2l "Dockerfile", s2l "Makefile", s2l "README", s2l "LICENSE",
   s2l ".gitignore"]

def BLOCKED_DIRS : List Text :=
  [s2l "node_modules", s2l "__pycache__", s2l ".git", s2l "dist",
   s2l "build", s2l "venv", s2l ".venv", s2l "env", s2l ".env", s2l ".idea",
   s2l ".vscode", s2l "coverage", s2l ".next", s2l "target", s2l "bin",
   s2l "obj", s2l ".gradle", s2l ".m2", s2l "vendor", s2l "Pods",
   s2l "test", s2l "tests", s2l "__tests__", s2l "spec", s2l "specs",
   s2l "testing", s2l "test_data", s2l "testdata", s2l "fixtures",
   s2l "mocks", s2l "mock", s2l "e2e", s2l "integration", s2l "unit",
   s2l "cypress", s2l "playwright"]

def BLOCKED_PATTERNS : List Text :=
  [s2l "package-lock.json", s2l "yarn.lock", s2l "pnpm-lock.yaml",
   s2l "composer.lock", s2l "Gemfile.lock", s2l "Cargo.lock",
   s2l "poetry.lock", s2l ".DS_Store", s2l ".eslintrc", s2l ".prettierrc",
   s2l "tsconfig.json", s2l "jest.config.js", s2l "babel.config.js",
   s2l ".babelrc", s2l "webpack.config.js", s2l "vite.config.js",
   s2l "setup.cfg", s2l "pyproject.toml", s2l "tox.ini", s2l ".coveragerc"]

def TEST_FILE_PATTERNS : List Text :=
  [s2l "test_", s2l "_test.", s2l ".test.", s2l ".spec.", s2l "_spec.",
   s2l "conftest.py", s2l "pytest.ini", s2l "setup.py"]

def MAX_FILE_SIZE : Nat := 50 * 1024

def MAX_CONTEXT_SIZE : Nat := 3500000

def LARGE_REPO_THRESHOLD : Nat := 10000000

/- ### Repository loader, `src/core/repository.py` -/

/-- Generic single-character split (Python `str.split(sep)`). -/
def splitOnCh (sep : Char) : Text → List Text
  | [] => [[]]
  | c :: cs =>
    if c = sep then [] :: splitOnCh sep cs
    else
      match splitOnCh sep cs with
      | [] => [[c]]
      | l :: ls => (c :: l) :: ls

/-- The `skip_patterns` of the aggressive-filtering branch of
`_is_allowed_file`. -/
def skipPatterns : List Text :=
  [s2l "example", s2l "demo", s2l "sample", s2l "doc/", s2l "docs/",
   s2l "tutorial", s2l "benchmark", s2l "contrib/", s2l "scripts/"]

/-- The `core_extensions` of the aggressive-filtering branch. -/
def coreExtensions : List Text :=
  [s2l ".py", s2l ".js", s2l ".ts", s2l ".jsx", s2l ".tsx", s2l ".java",
   s2l ".go", s2l ".rs"]

/-- The extension restriction applied only under aggressive filtering:
`ext = "." + filename.split(".")[-1] if "." in filename else ""`, and
the file is rejected when `ext` is nonempty and outside the core set. -/
def aggrExtBlocked (filename : Text) : Bool :=
  let ext :=
    if containsStr (s2l ".") filename then
      '.' :: (splitOnCh '.' filename).getLastD []
    else []
  !ext.isEmpty && !(coreExtensions.contains ext)

/-- `RepositoryLoader._is_allowed_file`. -/
def isAllowedFile (filePath : Text) (aggressive : Bool) : Bool :=
  let pathParts := splitOnCh '/' filePath
  let filename := pathParts.getLastD []
  let filenameLower := lowerL filename
  if BLOCKED_PATTERNS.contains filename then false
  else if pathParts.dropLast.any (fun part => BLOCKED_DIRS.contains part) then
    false
  else if TEST_FILE_PATTERNS.any (fun pat => containsStr pat filenameLower) then
    false
  else if aggressive &&
      skipPatterns.any (fun pat => containsStr pat (lowerL filePath)) then
    false
  else if aggressive && aggrExtBlocked filename then false
  else if ALLOWED_FILES.contains filename then true
  else ALLOWED_EXTENSIONS.any (fun ext => endsWithL ext filename)

/-- `re.sub(r"\n{4,}", "\n\n\n", content)`: the regex replaces each
maximal run of four or more newlines by exactly three newlines and
leaves shorter runs unchanged; the scan tracks the length `k` of the
pending newline run and flushes `min k 3` newlines at each non-newline
character and at the end. -/
def collapseAux : Nat → Text → Text
  | k, [] => List.replicate (min k 3) '\n'
  | k, c :: cs =>
    if c = '\n' then collapseAux (k + 1) cs
    else List.replicate (min k 3) '\n' ++ c :: collapseAux 0 cs

def collapseNl4 (l : Text) : Text := collapseAux 0 l

/-- `RepositoryLoader._clean_code`. -/
def cleanCode (content : Text) : Text :=
  pstrip (joinNl ((splitNl (collapseNl4 content)).map rstripL))

/-- `ProcessingStats` of `src/core/repository.py`. -/
structure ProcessingStats where
  files_processed : Nat := 0
  files_skipped : Nat := 0
  total_characters : Nat := 0
  estimated_tokens : Nat := 0
deriving DecidableEq

/-- A member of a ZIP archive: its path, the declared file size, and
its content decoded with `errors="ignore"`. -/
structure ZipEntry where
  path : Text
  fileSize : Nat
  content : Text
deriving DecidableEq

/-- The `<file name="...">` block built for each admitted file. -/
def fileEntryBlock (path content : Text) : Text :=
  s2l "<file name=\x22" ++ path ++ s2l "\x22>\n" ++ content ++ s2l "\n</file>\n\n"

/-- The `priority_dirs` of `_process_zip.file_priority`. -/
def priorityDirs : List Text :=
  [s2l "src/", s2l "lib/", s2l "core/", s2l "app/", s2l "pkg/"]

/-- The sort key `file_priority` of `_process_zip`. -/
def filePriority (path : Text) : Nat × Nat × Text :=
  let depth := countChar '/' path
  if priorityDirs.any (fun pd => containsStr pd (lowerL path)) then
    (0, depth, path)
  else (1, depth, path)

/-- Python string `<` (code point lexicographic). -/
def textLt : Text → Text → Bool
  | [], [] => false
  | [], _ :: _ => true
  | _ :: _, [] => false
  | a :: as, b :: bs =>
    if a.toNat < b.toNat then true
    else if b.toNat < a.toNat then false
    else textLt as bs

/-- Strict comparison of `file_priority` keys (Python tuple `<`). -/
def keyLt (k1 k2 : Nat × Nat × Text) : Bool :=
  if k1.1 < k2.1 then true
  else if k2.1 < k1.1 then false
  else if k1.2.1 < k2.2.1 then true
  else if k2.2.1 < k1.2.1 then false
  else textLt k1.2.2 k2.2.2

/-- Stable insertion for Python `sorted(file_list, key=file_priority)`:
an element is inserted after every earlier element whose key is
strictly smaller, and before the first element with a greater-or-equal
key, preserving the original order of equal keys. -/
def insertByKey (x : Text) : List Text → List Text
  | [] => [x]
  | y :: ys =>
    if keyLt (filePriority y) (filePriority x) then y :: insertByKey x ys
    else x :: y :: ys

def sortByPriority : List Text → List Text
  | [] => []
  | x :: xs => insertByKey x (sortByPriority xs)

/-- `zip_file.getinfo` / `zip_file.open`, resolving a path from the
name list to its entry. -/
def findEntry (entries : List ZipEntry) (path : Text) : Option ZipEntry :=
  entries.find? (fun e => e.path == path)

/-- The per-file loop of `_process_zip`; returns the admitted file
blocks in order together with the statistics.  The `break` on reaching
the context cap returns immediately. -/
def processFiles (entries : List ZipEntry) (aggressive : Bool) :
    List Text → ProcessingStats → List Text × ProcessingStats
  | [], stats => ([], stats)
  | path :: rest, stats =>
    if endsWithL (s2l "/") path then processFiles entries aggressive rest stats
    else if !(isAllowedFile path aggressive) then
      processFiles entries aggressive rest
        { stats with files_skipped := stats.files_skipped + 1 }
    else
      match findEntry entries path with
      | none =>
        processFiles entries aggressive rest
          { stats with files_skipped := stats.files_skipped + 1 }
      | some e =>
        if MAX_FILE_SIZE < e.fileSize then
          processFiles entries aggressive rest
            { stats with files_skipped := stats.files_skipped + 1 }
        else
          let content := cleanCode e.content
          if (pstrip content).isEmpty then
            processFiles entries aggressive rest
              { stats with files_skipped := stats.files_skipped + 1 }
          else
            let entryBlock := fileEntryBlock path content
            if MAX_CONTEXT_SIZE < stats.total_characters + entryBlock.length then
              ([], stats)
            else
              let r := processFiles entries aggressive rest
                { stats with
                  files_processed := stats.files_processed + 1,
                  total_characters := stats.total_characters + entryBlock.length }
              (entryBlock :: r.1, r.2)

/-- The aggressive-filtering flag of `_process_zip`: total size of the
non-directory members against the large-repository threshold. -/
def zipAggressive (entries : List ZipEntry) : Bool :=
  LARGE_REPO_THRESHOLD <
    ((entries.filter (fun e => !endsWithL (s2l "/") e.path)).map
      (fun e => e.fileSize)).sum

/-- `RepositoryLoader._process_zip`. -/
def processZip (entries : List ZipEntry) : Text × ProcessingStats :=
  let sortedFiles := sortByPriority (entries.map (fun e => e.path))
  let r := processFiles entries (zipAggressive entries) sortedFiles ⟨0, 0, 0, 0⟩
  let stats := { r.2 with estimated_tokens := r.2.total_characters / 4 }
  (r.1.join, stats)

/- ### GitHub download, `RepositoryLoader._download_github_repo` -/

/-- Outcome of one `requests.get` call: a raised timeout, another
raised network error, or an HTTP response. -/
inductive FetchResult where
  | timeout
  | netError (msg : Text)
  | response (status : Nat) (zipEntries : List ZipEntry)
deriving DecidableEq

/-- Python `url.rstrip("/")`. -/
def rstripSlash (l : Text) : Text :=
  (l.reverse.dropWhile (fun c => c == '/')).reverse

/-- The URL normalization at the top of `_download_github_repo`. -/
def normalizeUrl (url : Text) : Text :=
  let u1 := rstripSlash (pstrip url)
  let u2 := if endsWithL (s2l ".git") u1 then u1.take (u1.length - 4) else u1
  if (s2l "http://").isPrefixOf u2 || (s2l "https://").isPrefixOf u2 then u2
  else s2l "https://" ++ u2

/-- Match `github\.com/([^/]+)/([^/]+)` at the start of `l`.  The first
capture is the maximal nonempty run of non-slash characters, which must
be followed by a `/` (`owner.length < r1.length` states that the run
stopped at a slash); the second capture is the following nonempty run. -/
def matchGithubAt (l : Text) : Option (Text × Text) :=
  if (s2l "github.com/").isPrefixOf l then
    let r1 := l.drop 11
    let owner := r1.takeWhile (fun x => x != '/')
    if owner.isEmpty then none
    else if owner.length < r1.length then
      let repo := (r1.drop (owner.length + 1)).takeWhile (fun x => x != '/')
      if repo.isEmpty then none else some (owner, repo)
    else none
  else none

/-- `re.search` of the GitHub owner/repo pattern: leftmost match. -/
def githubSearch : Text → Option (Text × Text)
  | [] => none
  | c :: cs =>
    match matchGithubAt (c :: cs) with
    | some p => some p
    | none => githubSearch cs

/-- `repo.split(".")[0] if "." in repo and not repo.endswith(".js")
else repo`. -/
def repoNorm (repo : Text) : Text :=
  if containsStr (s2l ".") repo && !endsWithL (s2l ".js") repo then
    (splitOnCh '.' repo).headD []
  else repo

def archiveUrl (cleanUrl branch : Text) : Text :=
  cleanUrl ++ s2l "/archive/" ++ branch ++ s2l ".zip"

/-- The branch loop of `_download_github_repo`.  A raised timeout or
network error propagates out of the `for` loop to the `except` clauses,
aborting the whole retrieval; only a non-200 response falls through to
the next candidate branch. -/
def downloadLoop (fetch : Text → FetchResult) (cleanUrl ownerRepo : Text) :
    List Text → Except Text (List ZipEntry)
  | [] => Except.error (s2l "Repository not found: " ++ ownerRepo)
  | b :: bs =>
    match fetch (archiveUrl cleanUrl b) with
    | FetchResult.timeout => Except.error (s2l "Request timed out")
    | FetchResult.netError m => Except.error (s2l "Network error: " ++ m)
    | FetchResult.response status z =>
      if status = 200 then Except.ok z
      else downloadLoop fetch cleanUrl ownerRepo bs

/-- `RepositoryLoader._download_github_repo` over a fetch oracle. -/
def downloadGithubRepo (fetch : Text → FetchResult) (url : Text) :
    Except Text (List ZipEntry) :=
  let u := normalizeUrl url
  if !containsStr (s2l "github.com") u then
    Except.error (s2l "Please provide a valid GitHub URL")
  else
    match githubSearch u with
    | none => Except.error (s2l "Invalid GitHub URL format")
    | some (owner, repo0) =>
      let repo := repoNorm repo0
      let cleanUrl := s2l "https://github.com/" ++ owner ++ s2l "/" ++ repo
      downloadLoop fetch cleanUrl (owner ++ s2l "/" ++ repo)
        [s2l "HEAD", s2l "main", s2l "master"]

/- ### Claim theorems -/

/-- The four-file archive of the C6 scenario: `src/main.py` holding 500
bytes of content, a test file, a dependency-tree file, and a README. -/
def scenarioEntries : List ZipEntry :=
  [⟨s2l "src/main.py", 500, List.replicate 500 'a'⟩,
   ⟨s2l "tests/test_main.py", 20, s2l "def test(): pass"⟩,
   ⟨s2l "node_modules/x.js", 5, s2l "x=1;"⟩,
   ⟨s2l "README", 10, s2l "hello"⟩]

set_option maxRecDepth 100000 in
/-- C6: for an archive containing exactly the four non-empty files
`src/main.py` (500 bytes), `tests/test_main.py`, `node_modules/x.js`
and `README`, the loader admits `src/main.py` and `README` into the
context and rejects `tests/test_main.py` and `node_modules/x.js`, and
the resulting stats report `files_processed = 2` and
`files_skipped = 2`. -/
theorem c6_scenario_admission :
    (processZip scenarioEntries).2.files_processed = 2 ∧
    (processZip scenarioEntries).2.files_skipped = 2 ∧
    (processZip scenarioEntries).1 =
      fileEntryBlock (s2l "src/main.py") (List.replicate 500 'a') ++
        fileEntryBlock (s2l "README") (s2l "hello") ∧
    isAllowedFile (s2l "src/main.py") false = true ∧
    isAllowedFile (s2l "README") false = true ∧
    isAllowedFile (s2l "tests/test_main.py") false = false ∧
    isAllowedFile (s2l "node_modules/x.js") false = false := by
  refine ⟨?_, ?_, ?_, ?_, ?_, ?_, ?_⟩ <;> decide

/-- A fetch oracle that times out on the `HEAD` candidate and would
succeed with status 200 on every other URL (in particular on the `main`
candidate). -/
def timeoutFetch : Text → FetchResult := fun u =>
  if u = archiveUrl (s2l "https://github.com/octo/cat") (s2l "HEAD") then
    FetchResult.timeout
  else FetchResult.response 200 [⟨s2l "cat-main/README", 5, s2l "hello"⟩]

/-- C5 counterexample: the claim says a timeout on one candidate
reference falls through to the next candidate.  With an oracle that
times out on `HEAD` and would succeed on `main`, the loader instead
aborts the whole retrieval with the timeout error: the raised
`requests.exceptions.Timeout` propagates out of the branch `for` loop
to the `except` clause. -/
theorem c5_counterexample :
    downloadGithubRepo timeoutFetch (s2l "https://github.com/octo/cat") =
      Except.error (s2l "Request timed out") ∧
    timeoutFetch (archiveUrl (s2l "https://github.com/octo/cat") (s2l "main")) =
      FetchResult.response 200 [⟨s2l "cat-main/README", 5, s2l "hello"⟩] := by
  exact ⟨rfl, by decide⟩

/-- C5 amended: when the retrieval attempt against the first candidate
reference (`HEAD`) times out, the loader aborts the whole retrieval and
returns the distinct `"Request timed out"` error; it does not fall
through to the remaining candidates.  (Fall-through happens only on
non-200 responses.) -/
theorem c5_amended (fetch : Text → FetchResult)
    (h : fetch (archiveUrl (s2l "https://github.com/octo/cat") (s2l "HEAD")) =
      FetchResult.timeout) :
    downloadGithubRepo fetch (s2l "https://github.com/octo/cat") =
      Except.error (s2l "Request timed out") := by
  have step : downloadGithubRepo fetch (s2l "https://github.com/octo/cat") =
      downloadLoop fetch (s2l "https://github.com/octo/cat") (s2l "octo/cat")
        [s2l "HEAD", s2l "main", s2l "master"] := rfl
  rw [step]
  simp only [downloadLoop, h]

/-- Witness for C5 amended at the concrete oracle `timeoutFetch`. -/
theorem c5_amended_witness :
    timeoutFetch (archiveUrl (s2l "https://github.com/octo/cat") (s2l "HEAD")) =
      FetchResult.timeout ∧
    downloadGithubRepo timeoutFetch (s2l "https://github.com/octo/cat") =
      Except.error (s2l "Request timed out") :=
  ⟨by decide, c5_amended timeoutFetch (by decide)⟩

/-- C7 counterexample: the claim says runs of fewer than 4 consecutive
blank lines are left unchanged, but `a\n\n\n\nb` — a run of exactly 3
blank lines (4 newline characters, matched by `\n{4,}`) — is collapsed
to 2 blank lines. -/
theorem c7_counterexample :
    cleanCode (s2l "a\n\n\n\nb") = s2l "a\n\n\nb" ∧
    cleanCode (s2l "a\n\n\n\nb") ≠ s2l "a\n\n\n\nb" := by
  exact ⟨by decide, by decide⟩

/-- A chunk of text occupying a single line: nonempty, free of
newlines, and with non-whitespace first and last characters (so that
per-line trailing-whitespace stripping and the final strip leave it
unchanged). -/
def goodChunk (c : Text) : Prop :=
  c ≠ [] ∧ '\n' ∉ c ∧ isSp (c.headD ' ') = false ∧ isSp (c.getLastD ' ') = false

instance (c : Text) : Decidable (goodChunk c) := by
  unfold goodChunk
  infer_instance

/-- Text assembled from newline-free chunks separated by runs of
newlines: `c0` then, for each `(k, c)`, a run of `k` newlines followed
by the chunk `c`. -/
def assembleChunks (c0 : Text) : List (Nat × Text) → Text
  | [] => c0
  | (k, c) :: ps => c0 ++ List.replicate k '\n' ++ assembleChunks c ps

theorem headD_mem (c : Text) (d : Char) (h : c ≠ []) : c.headD d ∈ c := by
  cases c with
  | nil => exact absurd rfl h
  | cons a t => simp

theorem collapseAux_no_nl (c : Text) (x : Text) (hc : '\n' ∉ c) :
    collapseAux 0 (c ++ x) = c ++ collapseAux 0 x := by
  induction c with
  | nil => simp
  | cons a c ih =>
    simp only [List.mem_cons, not_or] at hc
    have ha : ¬ a = '\n' := fun hh => hc.1 hh.symm
    simp only [List.cons_append, collapseAux, if_neg ha]
    simp [ih hc.2]

theorem collapseAux_replicate (j : Nat) (k : Nat) (x : Text)
    (hx : x.headD ' ' ≠ '\n') :
    collapseAux k (List.replicate j '\n' ++ x) =
      List.replicate (min (k + j) 3) '\n' ++ collapseAux 0 x := by
  induction j generalizing k with
  | zero =>
    cases x with
    | nil => simp [collapseAux]
    | cons c cs =>
      have hc : ¬ c = '\n' := by simpa using hx
      simp [collapseAux, if_neg hc]
  | succ j ih =>
    have : List.replicate (j + 1) '\n' ++ x = '\n' :: (List.replicate j '\n' ++ x) := by
      simp [List.replicate_succ]
    rw [this, collapseAux, if_pos rfl, ih (k + 1)]
    congr 2
    omega

theorem assembleChunks_ne_nil (c : Text) (ps : List (Nat × Text))
    (hc : c ≠ []) : assembleChunks c ps ≠ [] := by
  cases ps with
  | nil => exact hc
  | cons p ps =>
    cases p with
    | mk k d => simp [assembleChunks, hc]

theorem assembleChunks_headD (c : Text) (ps : List (Nat × Text))
    (hc : c ≠ []) : (assembleChunks c ps).headD ' ' = c.headD ' ' := by
  cases ps with
  | nil => rfl
  | cons p ps =>
    cases p with
    | mk k d =>
      simp only [assembleChunks]
      cases c with
      | nil => exact absurd rfl hc
      | cons a t => simp

theorem collapse_assembleChunks (ps : List (Nat × Text)) (c0 : Text)
    (h0 : c0 ≠ [] ∧ '\n' ∉ c0)
    (hps : ∀ p ∈ ps, p.2 ≠ [] ∧ '\n' ∉ p.2) :
    collapseNl4 (assembleChunks c0 ps) =
      assembleChunks c0 (ps.map (fun p => (min p.1 3, p.2))) := by
  induction ps generalizing c0 with
  | nil =>
    show collapseAux 0 c0 = c0
    have := collapseAux_no_nl c0 [] h0.2
    simpa [collapseAux] using this
  | cons p ps ih =>
    cases p with
    | mk k c =>
      have hpc := hps (k, c) (by simp)
      have hx : (assembleChunks c ps).headD ' ' ≠ '\n' := by
        rw [assembleChunks_headD c ps hpc.1]
        intro hh
        exact hpc.2 (hh ▸ headD_mem c ' ' hpc.1)
      show collapseAux 0 (c0 ++ List.replicate k '\n' ++ assembleChunks c ps) = _
      rw [List.append_assoc, collapseAux_no_nl c0 _ h0.2,
        collapseAux_replicate k 0 (assembleChunks c ps) hx]
      have ihh := ih c ⟨hpc.1, hpc.2⟩ (fun q hq => hps q (by simp [hq]))
      rw [show collapseAux 0 (assembleChunks c ps) = collapseNl4 (assembleChunks c ps) from rfl,
        ihh]
      simp [assembleChunks, List.append_assoc]

theorem splitNl_replicate_append (j : Nat) (y : Text) :
    splitNl (List.replicate j '\n' ++ y) = List.replicate j [] ++ splitNl y := by
  induction j with
  | zero => simp
  | succ j ih =>
    rw [List.replicate_succ, List.cons_append, splitNl, if_pos rfl, ih,
      List.replicate_succ, List.cons_append]

theorem mem_splitNl_assembleChunks (ps : List (Nat × Text)) (c0 : Text)
    (h0 : '\n' ∉ c0)
    (hps : ∀ p ∈ ps, 1 ≤ p.1 ∧ p.2 ≠ [] ∧ '\n' ∉ p.2)
    (line : Text) (hl : line ∈ splitNl (assembleChunks c0 ps)) :
    line = [] ∨ line = c0 ∨ ∃ p ∈ ps, line = p.2 := by
  induction ps generalizing c0 with
  | nil =>
    rw [show assembleChunks c0 [] = c0 from rfl, splitNl_of_no_nl c0 h0] at hl
    simp only [List.mem_singleton] at hl
    exact Or.inr (Or.inl hl)
  | cons p ps ih =>
    cases p with
    | mk k c =>
      have hpc := hps (k, c) (by simp)
      obtain ⟨j, rfl⟩ : ∃ j, k = j + 1 := ⟨k - 1, by omega⟩
      rw [show assembleChunks c0 ((j + 1, c) :: ps) =
          c0 ++ List.replicate (j + 1) '\n' ++ assembleChunks c ps from rfl,
        List.append_assoc,
        show List.replicate (j + 1) '\n' = '\n' :: List.replicate j '\n' from by
          simp [List.replicate_succ],
        List.cons_append, splitNl_append_cons,
        splitNl_replicate_append] at hl
      rw [splitNl_of_no_nl c0 h0] at hl
      simp only [List.mem_append, List.mem_singleton, List.mem_replicate] at hl
      rcases hl with h1 | h2 | h3
      · exact Or.inr (Or.inl h1)
      · exact Or.inl h2.2
      · rcases ih c hpc.2.2
          (fun q hq => hps q (by simp [hq])) h3 with h4 | h5 | ⟨q, hq, he⟩
        · exact Or.inl h4
        · exact Or.inr (Or.inr ⟨(j + 1, c), by simp, h5⟩)
        · exact Or.inr (Or.inr ⟨q, by simp [hq], he⟩)

theorem getLastD_mem {α : Type} (l : List α) (d : α) (h : l ≠ []) :
    l.getLastD d ∈ l := by
  induction l generalizing d with
  | nil => exact absurd rfl h
  | cons a t ih =>
    rw [List.getLastD_cons d a t]
    cases t with
    | nil => simp [List.getLastD]
    | cons b bs => exact List.mem_cons_of_mem a (ih a (by simp))

theorem getLastD_irrel (b : Text) (d1 d2 : Char) (hb : b ≠ []) :
    b.getLastD d1 = b.getLastD d2 := by
  cases b with
  | nil => exact absurd rfl hb
  | cons y ys => simp [List.getLastD]

theorem getLastD_append (a b : Text) (d : Char) (hb : b ≠ []) :
    (a ++ b).getLastD d = b.getLastD d := by
  induction a generalizing d with
  | nil => rfl
  | cons x a ih =>
    rw [List.cons_append]
    rw [List.getLastD_cons d x (a ++ b), ih x]
    exact getLastD_irrel b x d hb

theorem assembleChunks_getLastD (ps : List (Nat × Text)) (c0 : Text)
    (h0 : c0 ≠ []) (hps : ∀ p ∈ ps, p.2 ≠ []) :
    (assembleChunks c0 ps).getLastD ' ' =
      (ps.getLastD (0, c0)).2.getLastD ' ' := by
  induction ps generalizing c0 with
  | nil => rfl
  | cons p ps ih =>
    cases p with
    | mk k c =>
      have hc := hps (k, c) (by simp)
      rw [show assembleChunks c0 ((k, c) :: ps) =
          c0 ++ List.replicate k '\n' ++ assembleChunks c ps from rfl]
      rw [getLastD_append _ _ _ (assembleChunks_ne_nil c ps hc)]
      rw [ih c hc (fun q hq => hps q (by simp [hq]))]
      cases ps with
      | nil => rfl
      | cons q qs => rfl

theorem lstripL_eq_self (l : Text) (h : isSp (l.headD ' ') = false) :
    lstripL l = l := by
  cases l with
  | nil => rfl
  | cons a t =>
    simp only [List.headD_cons] at h
    simp [lstripL, List.dropWhile_cons, h]

theorem rstripL_eq_self (l : Text) (h : isSp (l.getLastD ' ') = false) :
    rstripL l = l := by
  cases hl : l.reverse with
  | nil =>
    have : l = [] := by simpa using congrArg List.reverse hl
    simp [this, rstripL]
  | cons y ys =>
    have hl2 : l = ys.reverse ++ [y] := by
      have := congrArg List.reverse hl
      simpa using this
    have hy : y = l.getLastD ' ' := by
      rw [hl2, getLastD_append ys.reverse [y] ' ' (by simp)]
      simp [List.getLastD]
    rw [← hy] at h
    rw [rstripL, hl, List.dropWhile_cons, h]
    simp only [Bool.false_eq_true, if_false]
    rw [← hl, List.reverse_reverse]

theorem pstrip_eq_self (l : Text) (h1 : isSp (l.headD ' ') = false)
    (h2 : isSp (l.getLastD ' ') = false) : pstrip l = l := by
  rw [pstrip, lstripL_eq_self l h1, rstripL_eq_self l h2]

/-- C7 amended: `_clean_code` collapses each maximal run of `k ≥ 4`
newline characters (that is, 3 or more consecutive empty blank lines)
to exactly 3 newlines (2 blank lines), and leaves runs of at most 3
newlines (at most 2 blank lines) unchanged — on text whose lines carry
no trailing whitespace, blank lines are exactly the empty lines and the
per-line `rstrip` and the final `strip` change nothing, so the whole
cleaning is the per-run `min k 3`. -/
theorem c7_amended (c0 : Text) (ps : List (Nat × Text))
    (h0 : goodChunk c0) (hps : ∀ p ∈ ps, 1 ≤ p.1 ∧ goodChunk p.2) :
    cleanCode (assembleChunks c0 ps) =
      assembleChunks c0 (ps.map (fun p => (min p.1 3, p.2))) := by
  obtain ⟨h0ne, h0nl, h0hd, h0lst⟩ := h0
  have hcol := collapse_assembleChunks ps c0 ⟨h0ne, h0nl⟩
    (fun p hp => ⟨(hps p hp).2.1, (hps p hp).2.2.1⟩)
  rw [cleanCode, hcol]
  set X := assembleChunks c0 (ps.map (fun p => (min p.1 3, p.2))) with hX
  have hpsX : ∀ p ∈ ps.map (fun p => (min p.1 3, p.2)),
      1 ≤ p.1 ∧ p.2 ≠ [] ∧ '\n' ∉ p.2 := by
    intro p hp
    simp only [List.mem_map] at hp
    obtain ⟨q, hq, rfl⟩ := hp
    have h := hps q hq
    exact ⟨by omega, h.2.1, h.2.2.1⟩
  have hmem : ∀ line ∈ splitNl X, rstripL line = id line := by
    intro line hl
    rcases mem_splitNl_assembleChunks _ c0 h0nl hpsX line hl with h | h | ⟨p, hp, he⟩
    · simp [h, rstripL]
    · rw [h]
      exact rstripL_eq_self c0 h0lst
    · rw [he]
      simp only [List.mem_map] at hp
      obtain ⟨q, hq, rfl⟩ := hp
      exact rstripL_eq_self q.2 (hps q hq).2.2.2.2
  rw [List.map_congr_left hmem, List.map_id, joinNl_splitNl]
  have hXne : X ≠ [] := assembleChunks_ne_nil c0 _ h0ne
  have hhd : isSp (X.headD ' ') = false := by
    rw [hX, assembleChunks_headD c0 _ h0ne]
    exact h0hd
  have hlst : isSp (X.getLastD ' ') = false := by
    rw [hX, assembleChunks_getLastD _ c0 h0ne
      (fun q hq => by
        simp only [List.mem_map] at hq
        obtain ⟨p, hp, rfl⟩ := hq
        exact (hps p hp).2.1)]
    cases hps2 : ps.map (fun p => (min p.1 3, p.2)) with
    | nil =>
      simp only [hps2, List.getLastD]
      exact h0lst
    | cons q qs =>
      have hmem2 : (q :: qs).getLastD (0, c0) ∈ q :: qs :=
        getLastD_mem (q :: qs) (0, c0) (by simp)
      rw [← hps2] at hmem2
      simp only [List.mem_map] at hmem2
      obtain ⟨p, hp, he⟩ := hmem2
      rw [← hps2, ← he]
      exact (hps p hp).2.2.2.2
  exact pstrip_eq_self _ hhd hlst

/-- Witness for C7 amended: `a`, a run of 5 newlines (4 blank lines),
`b`, a run of 2 newlines (1 blank line), `c`. -/
theorem c7_amended_witness :
    goodChunk (s2l "a") ∧
    (∀ p ∈ [(5, s2l "b"), (2, s2l "c")], 1 ≤ p.1 ∧ goodChunk p.2) ∧
    cleanCode (assembleChunks (s2l "a") [(5, s2l "b"), (2, s2l "c")]) =
      assembleChunks (s2l "a") [(3, s2l "b"), (2, s2l "c")] := by
  refine ⟨by decide, by decide, ?_⟩
  have h := c7_amended (s2l "a") [(5, s2l "b"), (2, s2l "c")] (by decide) (by decide)
  simpa using h

/-- C10: even under aggressive large-repository filtering, a file
whose name contains no dot and is in the allow-listed special-file set
(Dockerfile, Makefile, README, LICENSE) is still admitted, provided it
is not excluded by the earlier directory/pattern checks: the narrowed
core-extension restriction computes an empty extension for such names
and therefore does not reject them, so the allow-list check is reached
and fires. -/
theorem c10_aggressive_extensionless (path : Text)
    (hfn : (splitOnCh '/' path).getLastD [] ∈
      [s2l "Dockerfile", s2l "Makefile", s2l "README", s2l "LICENSE"])
    (hdirs : ∀ seg ∈ (splitOnCh '/' path).dropLast,
      BLOCKED_DIRS.contains seg = false)
    (hskip : ∀ pat ∈ skipPatterns, containsStr pat (lowerL path) = false) :
    isAllowedFile path true = true := by
  have hdirs2 : (splitOnCh '/' path).dropLast.any
      (fun part => BLOCKED_DIRS.contains part) = false := by
    cases hb : (splitOnCh '/' path).dropLast.any
        (fun part => BLOCKED_DIRS.contains part) with
    | false => rfl
    | true =>
      obtain ⟨seg, hs, hseg⟩ := List.any_eq_true.mp hb
      rw [hdirs seg hs] at hseg
      cases hseg
  have hskip2 : skipPatterns.any
      (fun pat => containsStr pat (lowerL path)) = false := by
    cases hb : skipPatterns.any (fun pat => containsStr pat (lowerL path)) with
    | false => rfl
    | true =>
      obtain ⟨pat, hp, hpat⟩ := List.any_eq_true.mp hb
      rw [hskip pat hp] at hpat
      cases hpat
  simp only [List.mem_cons, List.not_mem_nil, or_false] at hfn
  rcases hfn with hf | hf | hf | hf <;>
    (simp only [isAllowedFile]
     rw [hf]
     rw [if_neg (by decide)]
     rw [if_neg (by rw [hdirs2]; simp)]
     rw [if_neg (by decide)]
     rw [if_neg (by rw [hskip2]; simp)]
     rw [if_neg (by decide)]
     rw [if_pos (by decide)])

/-- Witness for C10: `src/README` under aggressive filtering. -/
theorem c10_aggressive_extensionless_witness :
    ((splitOnCh '/' (s2l "src/README")).getLastD [] ∈
      [s2l "Dockerfile", s2l "Makefile", s2l "README", s2l "LICENSE"]) ∧
    isAllowedFile (s2l "src/README") true = true := by
  refine ⟨by decide, ?_⟩
  exact c10_aggressive_extensionless (s2l "src/README") (by decide) (by decide)
    (by decide)

theorem sum_le_of_sublist (l1 l2 : List Nat) (h : l1.Sublist l2) :
    l1.sum ≤ l2.sum := by
  induction h with
  | slnil => exact Nat.le_refl 0
  | cons a h ih =>
    rw [List.sum_cons]
    omega
  | cons₂ a h ih =>
    rw [List.sum_cons, List.sum_cons]
    omega

theorem fenceDropHead_sublist (lines : List Text) :
    (fenceDropHead lines).Sublist lines := by
  rw [fenceDropHead]
  split
  · exact List.tail_sublist lines
  · exact List.Sublist.refl lines

theorem fenceDropLast_sublist (lines1 : List Text) :
    (fenceDropLast lines1).Sublist lines1 := by
  rw [fenceDropLast]
  cases hgl : lines1.getLast? with
  | none => exact List.Sublist.refl lines1
  | some lastLine =>
    show (if pstrip lastLine = s2l "```" then lines1.dropLast
      else lines1).Sublist lines1
    split
    · exact List.dropLast_sublist lines1
    · exact List.Sublist.refl lines1

/-- The fence-unwrap step keeps a sublist of the lines of the stripped
input. -/
theorem unwrapFence_sublist (s : Text) :
    ∃ L, L.Sublist (splitNl (pstrip s)) ∧ unwrapFence s = joinNl L := by
  rw [unwrapFence]
  split
  · exact ⟨fenceDropLast (fenceDropHead (splitNl (pstrip s))),
      (fenceDropLast_sublist _).trans (fenceDropHead_sublist _), rfl⟩
  · exact ⟨splitNl (pstrip s), List.Sublist.refl _,
      (joinNl_splitNl (pstrip s)).symm⟩

theorem countSub_unwrapFence_le (p s : Text) (hp : p ≠ []) (hnl : '\n' ∉ p) :
    countSub p (unwrapFence s) ≤ countSub p s := by
  obtain ⟨L, hsub, he⟩ := unwrapFence_sublist s
  rw [he, countSub_joinNl p L hp hnl]
  calc (L.map (countSub p)).sum
      ≤ ((splitNl (pstrip s)).map (countSub p)).sum :=
        sum_le_of_sublist _ _ (hsub.map (countSub p))
    _ = countSub p (joinNl (splitNl (pstrip s))) :=
        (countSub_joinNl p (splitNl (pstrip s)) hp hnl).symm
    _ = countSub p (pstrip s) := by rw [joinNl_splitNl]
    _ ≤ countSub p s := countSub_pstrip_le p s

/-- C2: for every input text containing no graph-declaration keyword
(no occurrence of `"graph"`, hence none of `"digraph"`), `_prepare_dot`
wraps the (fence-unwrapped, stripped) content in a `digraph G { ... }`
container, and the output contains exactly one occurrence of the
directed-graph keyword `"digraph"` — the one of the wrapper. -/
theorem c2_prepare_wraps (s : Text) (h : countSub (s2l "graph") s = 0) :
    prepareDot s = s2l "digraph G \x7b\n" ++ unwrapFence s ++ s2l "\n\x7d" ∧
    countSub (s2l "digraph") (prepareDot s) = 1 := by
  have hgr : countSub (s2l "graph") (unwrapFence s) = 0 :=
    Nat.le_zero.mp (h ▸ countSub_unwrapFence_le (s2l "graph") s
      (by decide) (by decide))
  have hdg : countSub (s2l "digraph") (unwrapFence s) = 0 :=
    countSub_digraph_zero _ hgr
  have hcond : (!containsStr (s2l "digraph") (unwrapFence s) &&
      !containsStr (s2l "graph") (unwrapFence s)) = true := by
    have h1 : containsStr (s2l "digraph") (unwrapFence s) = false := by
      cases hb : containsStr (s2l "digraph") (unwrapFence s) with
      | false => rfl
      | true => exact absurd ((containsStr_iff _ _).mp hb) (by simp [hdg])
    have h2 : containsStr (s2l "graph") (unwrapFence s) = false := by
      cases hb : containsStr (s2l "graph") (unwrapFence s) with
      | false => rfl
      | true => exact absurd ((containsStr_iff _ _).mp hb) (by simp [hgr])
    rw [h1, h2]
    rfl
  have hwrap : prepareDot s =
      s2l "digraph G \x7b\n" ++ unwrapFence s ++ s2l "\n\x7d" := by
    rw [prepareDot, if_pos hcond]
  refine ⟨hwrap, ?_⟩
  rw [hwrap]
  have hshape : s2l "digraph G \x7b\n" ++ unwrapFence s ++ s2l "\n\x7d" =
      s2l "digraph G \x7b" ++ '\n' :: (unwrapFence s ++ '\n' :: s2l "\x7d") := by
    simp [s2l, List.append_assoc]
  rw [hshape,
    countSub_append_cons (s2l "digraph") (s2l "digraph G \x7b")
      (unwrapFence s ++ '\n' :: s2l "\x7d") '\n' (by decide) (by decide),
    countSub_append_cons (s2l "digraph") (unwrapFence s) (s2l "\x7d") '\n'
      (by decide) (by decide), hdg]
  decide

/-- Witness for C2 at the concrete graph-keyword-free input `A -> B`. -/
theorem c2_prepare_wraps_witness :
    countSub (s2l "graph") (s2l "A -> B") = 0 ∧
    prepareDot (s2l "A -> B") =
      s2l "digraph G \x7b\n" ++ unwrapFence (s2l "A -> B") ++ s2l "\n\x7d" ∧
    countSub (s2l "digraph") (prepareDot (s2l "A -> B")) = 1 := by
  refine ⟨by decide, ?_⟩
  exact c2_prepare_wraps (s2l "A -> B") (by decide)

/-- C8 counterexample: the unwrap step is not idempotent on every
fence-wrapped text.  For the fenced text with body `x ` (trailing
space), one unwrap yields `x ` but the second application strips the
trailing space, because the step begins with a whitespace strip. -/
theorem c8_counterexample :
    unwrapFence (unwrapFence (s2l "```\nx \n```")) ≠
      unwrapFence (s2l "```\nx \n```") ∧
    unwrapFence (s2l "```\nx \n```") = s2l "x " ∧
    unwrapFence (unwrapFence (s2l "```\nx \n```")) = s2l "x" := by
  exact ⟨by decide, by decide, by decide⟩

/-- C8 amended: on a text of the exact fenced shape
` ``` `+tag, newline, body, newline, ` ``` ` — where the fence tag has
no newline and the body is already whitespace-stripped and does not
itself start with a fence marker — the unwrap step returns the body,
and applying the unwrap step twice yields the same result as applying
it once. -/
theorem c8_amended (tag body : Text) (htag : '\n' ∉ tag)
    (hb1 : pstrip body = body)
    (hb2 : (s2l "```").isPrefixOf body = false) :
    unwrapFence (s2l "```" ++ tag ++ '\n' :: body ++ '\n' :: s2l "```") =
      body ∧
    unwrapFence (unwrapFence
        (s2l "```" ++ tag ++ '\n' :: body ++ '\n' :: s2l "```")) =
      unwrapFence (s2l "```" ++ tag ++ '\n' :: body ++ '\n' :: s2l "```") := by
  have hbody : unwrapFence body = body := by
    simp only [unwrapFence, hb1, hb2]
    rfl
  have htag3 : '\n' ∉ s2l "```" ++ tag := by
    intro hm
    rcases List.mem_append.mp hm with hx | hx
    · revert hx
      decide
    · exact htag hx
  have hhead : isSp ((s2l "```" ++ tag ++ '\n' :: body ++ '\n' ::
      s2l "```").headD ' ') = false := rfl
  have hform : s2l "```" ++ tag ++ '\n' :: body ++ '\n' :: s2l "```" =
      (s2l "```" ++ tag ++ '\n' :: body ++ ['\n']) ++ s2l "```" := by
    simp [List.append_assoc]
  have hlast : isSp ((s2l "```" ++ tag ++ '\n' :: body ++ '\n' ::
      s2l "```").getLastD ' ') = false := by
    rw [hform, getLastD_append _ _ _ (by decide)]
    decide
  have hsz : pstrip (s2l "```" ++ tag ++ '\n' :: body ++ '\n' ::
      s2l "```") = s2l "```" ++ tag ++ '\n' :: body ++ '\n' :: s2l "```" :=
    pstrip_eq_self _ hhead hlast
  have hpre : (s2l "```").isPrefixOf (s2l "```" ++ tag ++ '\n' :: body ++
      '\n' :: s2l "```") = true := by
    rw [List.isPrefixOf_iff_prefix]
    exact ⟨tag ++ '\n' :: body ++ '\n' :: s2l "```", by simp [List.append_assoc]⟩
  have hsplit : splitNl (s2l "```" ++ tag ++ '\n' :: body ++ '\n' ::
      s2l "```") = (s2l "```" ++ tag) :: (splitNl body ++ [s2l "```"]) := by
    rw [show s2l "```" ++ tag ++ '\n' :: body ++ '\n' :: s2l "```" =
        (s2l "```" ++ tag) ++ '\n' :: (body ++ '\n' :: s2l "```") from by
      simp [List.append_assoc]]
    rw [splitNl_append_cons, splitNl_append_cons,
      splitNl_of_no_nl (s2l "```" ++ tag) htag3,
      splitNl_of_no_nl (s2l "```") (by decide)]
    simp
  have hdh : fenceDropHead ((s2l "```" ++ tag) ::
      (splitNl body ++ [s2l "```"])) = splitNl body ++ [s2l "```"] := by
    rw [fenceDropHead]
    rw [if_pos ?hcond]
    case hcond =>
      rw [List.headD_cons, List.isPrefixOf_iff_prefix]
      exact ⟨tag, rfl⟩
    rfl
  have hdl : fenceDropLast (splitNl body ++ [s2l "```"]) = splitNl body := by
    rw [fenceDropLast, List.getLast?_concat]
    show (if pstrip (s2l "```") = s2l "```" then
      (splitNl body ++ [s2l "```"]).dropLast else
      splitNl body ++ [s2l "```"]) = splitNl body
    rw [if_pos (by decide), List.dropLast_concat]
  have honce : unwrapFence (s2l "```" ++ tag ++ '\n' :: body ++ '\n' ::
      s2l "```") = body := by
    simp only [unwrapFence, hsz, hpre, if_true, hsplit, hdh, hdl,
      joinNl_splitNl]
  exact ⟨honce, by rw [honce, hbody]⟩

/-- Witness for C8 amended at the concrete fenced text
` ```dot\ndigraph G \x7b a -> b; \x7d\n``` `. -/
theorem c8_amended_witness :
    ('\n' ∉ s2l "dot") ∧
    pstrip (s2l "digraph G \x7b a -> b; \x7d") = s2l "digraph G \x7b a -> b; \x7d" ∧
    unwrapFence (unwrapFence (s2l "```" ++ s2l "dot" ++ '\n' ::
        s2l "digraph G \x7b a -> b; \x7d" ++ '\n' :: s2l "```")) =
      unwrapFence (s2l "```" ++ s2l "dot" ++ '\n' ::
        s2l "digraph G \x7b a -> b; \x7d" ++ '\n' :: s2l "```") := by
  refine ⟨by decide, by decide, ?_⟩
  exact (c8_amended (s2l "dot") (s2l "digraph G \x7b a -> b; \x7d")
    (by decide) (by decide) (by decide)).2

/-- C1 counterexample: the raw text `# \x7b` has one more `\x7b` than
`\x7d` (N = 1 > 0), yet `_sanitize_dot` appends no closing brace — the
line is a `#` comment line, which the scan skips before counting
braces — and the output is not brace-balanced. -/
theorem c1_counterexample :
    sanitizeDot (s2l "# \x7b") = some (s2l "# \x7b") ∧
    countChar '\x7b' (s2l "# \x7b") = countChar '\x7d' (s2l "# \x7b") + 1 ∧
    ¬ countChar '\x7b' (s2l "# \x7b") = countChar '\x7d' (s2l "# \x7b") := by
  exact ⟨by decide, by decide, by decide⟩

/-- The open-minus-close brace count of a text. -/
def braceDelta (l : Text) : Int :=
  (countChar '\x7b' l : Int) - (countChar '\x7d' l : Int)

def linesDelta (lines : List Text) : Int :=
  (lines.map braceDelta).sum

/-- A line that passes through the `_sanitize_dot` loop unchanged: it
is scanned (non-blank, not a comment), carries no HTML-like tag, is not
caught by either tail-repair drop condition, and has an even number of
quote characters. -/
def cleanLine (l : Text) : Prop :=
  (pstrip l).isEmpty = false ∧
  (s2l "//").isPrefixOf (pstrip l) = false ∧
  (s2l "#").isPrefixOf (pstrip l) = false ∧
  '<' ∉ l ∧
  (endsWithL (s2l "->") (pstrip l) ||
    endsWithL (s2l "->") (rstripL (pstrip l))) = false ∧
  (containsStr (s2l "->") (pstrip l) && !endsWithL (s2l ";") (pstrip l) &&
    !containsStr (s2l "[") (pstrip l) &&
    decide ((splitArrow (pstrip l)).length = 2) &&
    (pstrip ((splitArrow (pstrip l)).getD 1 [])).isEmpty) = false ∧
  countChar '\x22' (pstrip l) % 2 = 0

instance (l : Text) : Decidable (cleanLine l) := by
  unfold cleanLine
  infer_instance

theorem stripTagsAux_no_lt (fuel : Nat) (l : Text) (h : '<' ∉ l) :
    stripTagsAux fuel l = l := by
  induction fuel generalizing l with
  | zero => rfl
  | succ fuel ih =>
    cases l with
    | nil => rfl
    | cons c cs =>
      simp only [List.mem_cons, not_or] at h
      have hc : ¬ (c = '<' ∧ ¬ (cs.takeWhile (fun x => x != '>')).isEmpty = true ∧
          (cs.takeWhile (fun x => x != '>')).length < cs.length) := by
        intro hh
        exact h.1 hh.1.symm
      simp only [stripTagsAux, if_neg hc]
      rw [ih cs h.2]

theorem stripTags_no_lt (l : Text) (h : '<' ∉ l) : stripTags l = l :=
  stripTagsAux_no_lt l.length l h

/-- On clean lines the `_sanitize_dot` loop keeps every line unchanged
and its brace counter adds up the per-line open-minus-close counts. -/
theorem sanitizeLines_clean (lines : List Text)
    (h : ∀ l ∈ lines, cleanLine l) (n i : Nat) (bc : Int) :
    sanitizeLines n i bc lines = (lines, bc + linesDelta lines) := by
  induction lines generalizing i bc with
  | nil => simp [sanitizeLines, linesDelta]
  | cons line rest ih =>
    obtain ⟨h1, h2, h3, h4, h5, h6, h7⟩ := h line (by simp)
    have hrest : ∀ l ∈ rest, cleanLine l := fun l hl => h l (by simp [hl])
    have hskip : (((pstrip line).isEmpty ||
        (s2l "//").isPrefixOf (pstrip line)) ||
        (s2l "#").isPrefixOf (pstrip line)) = false := by
      rw [h1, h2, h3]
      rfl
    have hq : ¬ (countChar '\x22' (pstrip line) % 2 = 1) := by
      omega
    simp only [sanitizeLines, hskip, Bool.false_eq_true, if_false,
      stripTags_no_lt line h4]
    by_cases hlf : n - 3 ≤ i
    · rw [if_pos hlf]
      rw [show (endsWithL (s2l "->") (pstrip line) ||
          endsWithL (s2l "->") (rstripL (pstrip line))) = false from h5]
      simp only [Bool.false_eq_true, if_false]
      rw [show (containsStr (s2l "->") (pstrip line) &&
          !endsWithL (s2l ";") (pstrip line) &&
          !containsStr (s2l "[") (pstrip line) &&
          decide ((splitArrow (pstrip line)).length = 2) &&
          (pstrip ((splitArrow (pstrip line)).getD 1 [])).isEmpty) = false
          from h6]
      simp only [Bool.false_eq_true, if_false, if_neg hq]
      rw [ih hrest]
      refine congrArg (Prod.mk (line :: rest)) ?_
      simp only [linesDelta, List.map_cons, List.sum_cons, braceDelta]
      omega
    · rw [if_neg hlf]
      rw [ih hrest]
      refine congrArg (Prod.mk (line :: rest)) ?_
      simp only [linesDelta, List.map_cons, List.sum_cons, braceDelta]
      omega

theorem countChar_append (c : Char) (a b : Text) :
    countChar c (a ++ b) = countChar c a + countChar c b := by
  simp [countChar, List.countP_append]

theorem countChar_joinNl (c : Char) (ls : List Text) (hc : c ≠ '\n') :
    countChar c (joinNl ls) = (ls.map (countChar c)).sum := by
  induction ls with
  | nil => simp [joinNl, countChar]
  | cons l ls ih =>
    cases ls with
    | nil => simp [joinNl]
    | cons m ms =>
      rw [joinNl_cons l (m :: ms) (by simp), countChar_append]
      rw [show countChar c ('\n' :: joinNl (m :: ms)) =
          countChar c (joinNl (m :: ms)) from by
        simp only [countChar, List.countP_cons]
        have : ¬ ('\n' = c) := fun hh => hc hh.symm
        simp [this]]
      rw [ih]
      simp

theorem linesDelta_eq (ls : List Text) :
    linesDelta ls = ((ls.map (countChar '\x7b')).sum : Int) -
      ((ls.map (countChar '\x7d')).sum : Int) := by
  induction ls with
  | nil => simp [linesDelta]
  | cons l ls ih =>
    simp only [linesDelta, List.map_cons, List.sum_cons, braceDelta] at ih ⊢
    push_cast
    push_cast at ih
    omega

theorem braceDelta_eq_linesDelta (s : Text) :
    braceDelta s = linesDelta (splitNl s) := by
  have h1 : countChar '\x7b' s = ((splitNl s).map (countChar '\x7b')).sum := by
    conv_lhs => rw [← joinNl_splitNl s]
    exact countChar_joinNl _ _ (by decide)
  have h2 : countChar '\x7d' s = ((splitNl s).map (countChar '\x7d')).sum := by
    conv_lhs => rw [← joinNl_splitNl s]
    exact countChar_joinNl _ _ (by decide)
  rw [braceDelta, h1, h2, linesDelta_eq]

theorem countChar_replicate (c d : Char) (n : Nat) (h : d ≠ c) :
    countChar c (List.replicate n d) = 0 := by
  induction n with
  | zero => rfl
  | succ n ih =>
    rw [List.replicate_succ]
    simp only [countChar, List.countP_cons] at ih ⊢
    simp [ih, h]

set_option maxHeartbeats 1000000 in
/-- C1 amended: let N be the running open-minus-close brace count over
the scanned lines — for text all of whose lines are scanned unchanged
(non-blank, non-comment, no HTML-like tags, no tail repair, even
quotes), N equals the whole text's open-minus-close brace count.  The
sanitize step appends exactly N closing braces (after a newline) when
N > 0 and appends nothing when N ≤ 0; in the positive case the output
is brace-balanced. -/
theorem c1_amended (s : Text) (herr : errorish s = false)
    (hclean : ∀ l ∈ splitNl s, cleanLine l) :
    sanitizeDot s = some (if 0 < braceDelta s then
      s ++ '\n' :: List.replicate (braceDelta s).toNat '\x7d' else s) ∧
    (0 < braceDelta s →
      countChar '\x7b' (s ++ '\n' :: List.replicate (braceDelta s).toNat '\x7d') =
      countChar '\x7d' (s ++ '\n' :: List.replicate (braceDelta s).toNat '\x7d')) := by
  constructor
  · simp only [sanitizeDot]
    rw [if_neg (by rw [herr]; simp)]
    rw [sanitizeLines_clean (splitNl s) hclean (splitNl s).length 0 0]
    simp only [joinNl_splitNl]
    rw [show (0 : Int) + linesDelta (splitNl s) = braceDelta s from by
      rw [braceDelta_eq_linesDelta]; omega]
    by_cases hp : 0 < braceDelta s
    · rw [if_pos hp, if_pos hp]
    · rw [if_neg hp, if_neg hp]
  · intro hp
    rw [countChar_append, countChar_append]
    rw [show countChar '\x7b' ('\n' :: List.replicate (braceDelta s).toNat '\x7d') =
        countChar '\x7b' (List.replicate (braceDelta s).toNat '\x7d') from by
      simp [countChar, List.countP_cons]]
    rw [show countChar '\x7d' ('\n' :: List.replicate (braceDelta s).toNat '\x7d') =
        countChar '\x7d' (List.replicate (braceDelta s).toNat '\x7d') from by
      simp [countChar, List.countP_cons]]
    rw [countChar_replicate '\x7b' '\x7d' _ (by decide)]
    rw [show countChar '\x7d' (List.replicate (braceDelta s).toNat '\x7d') =
        (braceDelta s).toNat from by
      simp [countChar, List.countP_replicate]]
    have hd : braceDelta s =
        (countChar '\x7b' s : Int) - (countChar '\x7d' s : Int) := rfl
    omega

/-- Witness for C1 amended at the two-line input
`digraph G \x7b` / `  a -> b;` with N = 1. -/
theorem c1_amended_witness :
    errorish (s2l "digraph G \x7b\n  a -> b;") = false ∧
    (∀ l ∈ splitNl (s2l "digraph G \x7b\n  a -> b;"), cleanLine l) ∧
    sanitizeDot (s2l "digraph G \x7b\n  a -> b;") =
      some (if 0 < braceDelta (s2l "digraph G \x7b\n  a -> b;") then
        s2l "digraph G \x7b\n  a -> b;" ++ '\n' ::
          List.replicate (braceDelta (s2l "digraph G \x7b\n  a -> b;")).toNat '\x7d'
        else s2l "digraph G \x7b\n  a -> b;") := by
  refine ⟨by decide, by decide, ?_⟩
  exact (c1_amended (s2l "digraph G \x7b\n  a -> b;") (by decide) (by decide)).1

/-- Loop invariant of `_process_zip`: starting under the context cap,
the run stays under the cap, the character counter totals exactly the
emitted whole blocks, the processed-file counter counts them, and every
emitted block is the complete `<file>` block of some archive entry. -/
theorem processFiles_inv (entries : List ZipEntry) (aggressive : Bool)
    (paths : List Text) (stats : ProcessingStats)
    (hstats : stats.total_characters ≤ MAX_CONTEXT_SIZE) :
    (processFiles entries aggressive paths stats).2.total_characters ≤
      MAX_CONTEXT_SIZE ∧
    (processFiles entries aggressive paths stats).2.total_characters =
      stats.total_characters +
        ((processFiles entries aggressive paths stats).1.map
          List.length).sum ∧
    (processFiles entries aggressive paths stats).2.files_processed =
      stats.files_processed +
        (processFiles entries aggressive paths stats).1.length ∧
    ∀ b ∈ (processFiles entries aggressive paths stats).1,
      ∃ e ∈ entries, b = fileEntryBlock e.path (cleanCode e.content) := by
  induction paths generalizing stats with
  | nil =>
    refine ⟨hstats, by simp [processFiles], by simp [processFiles], ?_⟩
    intro b hb
    simp [processFiles] at hb
  | cons path rest ih =>
    simp only [processFiles]
    split
    · exact ih stats hstats
    · split
      · exact ih _ hstats
      · split
        · exact ih _ hstats
        · rename_i e hfind
          split
          · exact ih _ hstats
          · split
            · exact ih _ hstats
            · split
              · refine ⟨hstats, by simp, by simp, ?_⟩
                intro b hb
                simp at hb
              · rename_i hsize hempty hcap
                have hcap2 : stats.total_characters +
                    (fileEntryBlock path (cleanCode e.content)).length ≤
                    MAX_CONTEXT_SIZE := by
                  omega
                obtain ⟨ha, hb, hc, hd⟩ := ih
                  { stats with
                    files_processed := stats.files_processed + 1,
                    total_characters := stats.total_characters +
                      (fileEntryBlock path (cleanCode e.content)).length }
                  hcap2
                refine ⟨ha, ?_, ?_, ?_⟩
                · simp only [List.map_cons, List.sum_cons]
                  rw [hb]
                  simp only []
                  omega
                · simp only [List.length_cons]
                  rw [hc]
                  simp only []
                  omega
                · intro b hbm
                  rcases List.mem_cons.mp hbm with hb1 | hb2
                  · have hmem := List.mem_of_find?_eq_some hfind
                    have hpeq : e.path = path := by
                      have := List.find?_some hfind
                      simpa using this
                    exact ⟨e, hmem, by rw [hb1, hpeq]⟩
                  · exact hd b hb2

/-- C4: for every processed archive the accumulated context satisfies
`total_characters ≤ MAX_CONTEXT_SIZE`, `total_characters` is exactly
the length of the built context, and the context is a concatenation of
whole admitted `<file>` blocks — each block is the complete block of
some entry of the archive, never truncated mid-content. -/
theorem c4_context_bounded (entries : List ZipEntry) :
    (processZip entries).2.total_characters ≤ MAX_CONTEXT_SIZE ∧
    (processZip entries).1.length = (processZip entries).2.total_characters ∧
    ∃ blocks : List Text,
      (processZip entries).1 = blocks.join ∧
      (processZip entries).2.files_processed = blocks.length ∧
      ∀ b ∈ blocks, ∃ e ∈ entries, b = fileEntryBlock e.path (cleanCode e.content) := by
  obtain ⟨ha, hb, hc, hd⟩ := processFiles_inv entries (zipAggressive entries)
    (sortByPriority (entries.map (fun e => e.path))) ⟨0, 0, 0, 0⟩
    (Nat.zero_le _)
  have h0t : (⟨0, 0, 0, 0⟩ : ProcessingStats).total_characters = 0 := rfl
  have h0p : (⟨0, 0, 0, 0⟩ : ProcessingStats).files_processed = 0 := rfl
  rw [h0t] at hb
  rw [h0p] at hc
  refine ⟨ha, ?_, ?_⟩
  · show ((processFiles entries (zipAggressive entries)
        (sortByPriority (entries.map (fun e => e.path)))
        ⟨0, 0, 0, 0⟩).1.join).length =
      (processFiles entries (zipAggressive entries)
        (sortByPriority (entries.map (fun e => e.path)))
        ⟨0, 0, 0, 0⟩).2.total_characters
    rw [List.length_join, hb]
    omega
  · refine ⟨(processFiles entries (zipAggressive entries)
      (sortByPriority (entries.map (fun (e : ZipEntry) => e.path)))
      ⟨0, 0, 0, 0⟩).1, rfl, ?_, hd⟩
    show (processFiles entries (zipAggressive entries)
        (sortByPriority (entries.map (fun e => e.path)))
        ⟨0, 0, 0, 0⟩).2.files_processed = _
    rw [hc]
    omega

/-- C3: `render` is total in the embedding — every failure of a
pipeline step after preparation is caught rather than propagated.  When
the external renderer fails on the fully prepared (pre-render) source,
`render` returns the fallback HTML view, which contains the first 2000
characters of that source together with the error message. -/
theorem c3_render_fallback (renderSvg : Text → Except Text Text)
    (dotSource : Text) (layout : LayoutOptions) (sanitized e : Text)
    (hne : (s2l "Error:").isPrefixOf dotSource = false)
    (hsan : sanitizeDot (prepareDot dotSource) = some sanitized)
    (hfail : renderSvg (applyLayout sanitized layout) = Except.error e) :
    render renderSvg dotSource layout =
      fallbackHtml (applyLayout sanitized layout) (some e) ∧
    countSub (List.take 2000 (applyLayout sanitized layout))
      (render renderSvg dotSource layout) ≠ 0 ∧
    countSub e (render renderSvg dotSource layout) ≠ 0 := by
  have hrender : render renderSvg dotSource layout =
      fallbackHtml (applyLayout sanitized layout) (some e) := by
    simp only [render]
    rw [if_neg (by rw [hne]; simp), hsan]
    show (match renderSvg (applyLayout sanitized layout) with
      | Except.error err => fallbackHtml (applyLayout sanitized layout) (some err)
      | Except.ok svg => wrapSvg svg layout.zoom) =
      fallbackHtml (applyLayout sanitized layout) (some e)
    rw [hfail]
  have hfb : fallbackHtml (applyLayout sanitized layout) (some e) =
      s2l "<div style=\x22background: #f9fafb; padding: 1.5rem; border-radius: 12px;\x22>\n            <strong>üìä Architecture (Text View)</strong>\n            " ++
      (if e ≠ [] then
        s2l "<p style=\x27color: #dc2626;\x27>Rendering error: " ++ e ++ s2l "</p>"
      else []) ++
      s2l "\n            <pre style=\x22background: #fff; padding: 1rem; border-radius: 8px; overflow-x: auto;\x22>" ++
      (applyLayout sanitized layout).take 2000 ++
      s2l "</pre>\n        </div>" := rfl
  refine ⟨hrender, ?_, ?_⟩
  · rw [hrender]
    apply (countSub_ne_zero_iff _ _).mpr
    refine ⟨s2l "<div style=\x22background: #f9fafb; padding: 1.5rem; border-radius: 12px;\x22>\n            <strong>üìä Architecture (Text View)</strong>\n            " ++
      (if e ≠ [] then
        s2l "<p style=\x27color: #dc2626;\x27>Rendering error: " ++ e ++ s2l "</p>"
      else []) ++
      s2l "\n            <pre style=\x22background: #fff; padding: 1rem; border-radius: 8px; overflow-x: auto;\x22>",
      s2l "</pre>\n        </div>", rfl⟩
  · rw [hrender]
    apply (countSub_ne_zero_iff _ _).mpr
    by_cases he : e = []
    · exact ⟨[], fallbackHtml (applyLayout sanitized layout) (some e),
        by rw [he]; rfl⟩
    · refine ⟨s2l "<div style=\x22background: #f9fafb; padding: 1.5rem; border-radius: 12px;\x22>\n            <strong>üìä Architecture (Text View)</strong>\n            " ++
        s2l "<p style=\x27color: #dc2626;\x27>Rendering error: ",
        s2l "</p>" ++
        s2l "\n            <pre style=\x22background: #fff; padding: 1rem; border-radius: 8px; overflow-x: auto;\x22>" ++
        (applyLayout sanitized layout).take 2000 ++
        s2l "</pre>\n        </div>", ?_⟩
      rw [hfb, if_pos he]
      simp [List.append_assoc]

/-- A renderer oracle that always fails. -/
def failingRenderer : Text → Except Text Text :=
  fun _ => Except.error (s2l "boom")

/-- Witness for C3 at a concrete diagram, layout and failing renderer. -/
theorem c3_render_fallback_witness :
    sanitizeDot (prepareDot (s2l "digraph G \x7b a -> b; \x7d")) =
      some (s2l "digraph G \x7b a -> b; \x7d") ∧
    render failingRenderer (s2l "digraph G \x7b a -> b; \x7d")
        ⟨s2l "TB", s2l "polyline", s2l "0.5", s2l "0.75", s2l "1.0"⟩ =
      fallbackHtml
        (applyLayout (s2l "digraph G \x7b a -> b; \x7d")
          ⟨s2l "TB", s2l "polyline", s2l "0.5", s2l "0.75", s2l "1.0"⟩)
        (some (s2l "boom")) := by
  refine ⟨by decide, ?_⟩
  exact (c3_render_fallback failingRenderer (s2l "digraph G \x7b a -> b; \x7d")
    ⟨s2l "TB", s2l "polyline", s2l "0.5", s2l "0.75", s2l "1.0"⟩
    (s2l "digraph G \x7b a -> b; \x7d") (s2l "boom")
    (by decide) (by decide) rfl).1

/- ### C9: order-independence of node/edge counting -/

/-- A DOT node token: a bare word or a quoted name. -/
inductive DotTok where
  | word (w : Text)
  | quot (q : Text)
deriving DecidableEq

/-- The concrete text of a token. -/
def DotTok.render : DotTok → Text
  | DotTok.word w => w
  | DotTok.quot q => '\x22' :: q ++ ['\x22']

/-- The node name a token denotes (the capture group of the edge
regex). -/
def DotTok.name : DotTok → Text
  | DotTok.word w => w
  | DotTok.quot q => q

/-- Well-formedness of a token: a word is a nonempty run of word
characters; a quoted name is nonempty and contains no quote, newline or
bracket. -/
def goodTok : DotTok → Prop
  | DotTok.word w => w ≠ [] ∧ ∀ c ∈ w, isWordCh c = true
  | DotTok.quot q => q ≠ [] ∧ ∀ c ∈ q, c ≠ '\x22' ∧ c ≠ '\n' ∧ c ≠ '['

instance (t : DotTok) : Decidable (goodTok t) := by
  cases t <;> (unfold goodTok; infer_instance)

/-- A self-contained edge statement `tok -> tok;` rendered on one
line. -/
def renderEdgeLine (e : DotTok × DotTok) : Text :=
  e.1.render ++ s2l " -> " ++ e.2.render ++ [';']

def goodEdgeLine (e : DotTok × DotTok) : Prop := goodTok e.1 ∧ goodTok e.2

instance (e : DotTok × DotTok) : Decidable (goodEdgeLine e) := by
  unfold goodEdgeLine
  infer_instance

theorem takeWhile_all_append (p : Char → Bool) (w x : Text)
    (hw : ∀ c ∈ w, p c = true) (hx : p (x.headD ' ') = false) :
    (w ++ x).takeWhile p = w ∧ (w ++ x).drop w.length = x := by
  induction w with
  | nil =>
    refine ⟨?_, by simp⟩
    cases x with
    | nil => rfl
    | cons a t =>
      simp only [List.headD_cons] at hx
      simp [List.takeWhile_cons, hx]
  | cons c w ih =>
    have hc := hw c (by simp)
    have hrest := ih (fun d hd => hw d (by simp [hd]))
    simp only [List.cons_append, List.takeWhile_cons, hc, if_true,
      List.length_cons, List.drop_succ_cons]
    exact ⟨by rw [hrest.1], hrest.2⟩

theorem matchToken_render (t : DotTok) (ht : goodTok t) (x : Text)
    (hx : isWordCh (x.headD ' ') = false) :
    matchToken (t.render ++ x) = some (t.name, x) := by
  cases t with
  | word w =>
    obtain ⟨hne, hall⟩ := ht
    cases w with
    | nil => exact absurd rfl hne
    | cons c cs =>
      have hc : isWordCh c = true := hall c (by simp)
      have hcq : ¬ c = '\x22' := by
        intro hh
        rw [hh] at hc
        exact absurd hc (by decide)
      have htw := takeWhile_all_append isWordCh (c :: cs) x hall hx
      simp only [List.cons_append] at htw
      simp only [DotTok.render, DotTok.name, List.cons_append, matchToken,
        if_neg hcq]
      rw [htw.1, if_neg (by simp), htw.2]
  | quot q =>
    obtain ⟨hne, hall⟩ := ht
    have hall2 : ∀ c ∈ q, (c != '\x22') = true := by
      intro c hc
      simpa using (hall c hc).1
    have hx2 : (('\x22' :: x).headD ' ' != '\x22') = false := by simp
    have htw := takeWhile_all_append (fun c => c != '\x22') q ('\x22' :: x)
      hall2 hx2
    have hshape : DotTok.render (DotTok.quot q) ++ x =
        '\x22' :: (q ++ '\x22' :: x) := by
      simp [DotTok.render]
    rw [hshape]
    simp only [matchToken, if_pos rfl, DotTok.name]
    rw [htw.1]
    have hdrop : List.drop (q.length + 1) (q ++ '\x22' :: x) = x := by
      have h2 := congrArg (List.drop 1) htw.2
      rw [List.drop_drop] at h2
      simpa [Nat.add_comm] using h2
    rw [if_neg (fun hh => hne (List.isEmpty_iff.mp hh)), hdrop]
    have hlt : q.length < (q ++ '\x22' :: x).length := by
      rw [List.length_append]
      simp
    rw [if_pos hlt]
    simp

theorem isSp_false_of_isWordCh (c : Char) (h : isWordCh c = true) :
    isSp c = false := by
  cases hs : isSp c with
  | false => rfl
  | true =>
    exfalso
    simp only [isSp, Bool.or_eq_true, decide_eq_true_eq] at hs
    rcases hs with ((((h1 | h1) | h1) | h1) | h1) | h1 <;>
      (subst h1; exact absurd h (by decide))

theorem dropWhile_isSp_sp_cons (l : Text) :
    (' ' :: l).dropWhile isSp = l.dropWhile isSp := by
  rw [List.dropWhile_cons, if_pos (by decide)]

theorem dropWhile_isSp_dash (l : Text) :
    ('-' :: l).dropWhile isSp = '-' :: l := by
  rw [List.dropWhile_cons, if_neg (by decide)]

theorem dropWhile_isSp_render (t : DotTok) (ht : goodTok t) (y : Text) :
    (t.render ++ y).dropWhile isSp = t.render ++ y := by
  cases t with
  | word w =>
    cases w with
    | nil => exact absurd rfl ht.1
    | cons c cs =>
      have hw : isWordCh c = true := ht.2 c (by simp)
      have hsp : isSp c = false := isSp_false_of_isWordCh c hw
      show ((c :: cs) ++ y).dropWhile isSp = (c :: cs) ++ y
      rw [List.cons_append, List.dropWhile_cons, hsp]
      simp
  | quot q =>
    have hsh : (DotTok.quot q).render ++ y = '\x22' :: ((q ++ ['\x22']) ++ y) := by
      simp [DotTok.render]
    rw [hsh, List.dropWhile_cons, if_neg (by decide)]

theorem matchToken_none_semi (x : Text) : matchToken (';' :: x) = none := by
  simp only [matchToken, if_neg (by decide : ¬ (';' = '\x22'))]
  rw [if_pos]
  rw [List.takeWhile_cons, if_neg (by decide)]
  rfl

theorem matchToken_none_nl (x : Text) : matchToken ('\n' :: x) = none := by
  simp only [matchToken, if_neg (by decide : ¬ ('\n' = '\x22'))]
  rw [if_pos]
  rw [List.takeWhile_cons, if_neg (by decide)]
  rfl

theorem matchEdgeAt_none_semi (x : Text) : matchEdgeAt (';' :: x) = none := by
  simp only [matchEdgeAt, matchToken_none_semi]

theorem matchEdgeAt_none_nl (x : Text) : matchEdgeAt ('\n' :: x) = none := by
  simp only [matchEdgeAt, matchToken_none_nl]

theorem matchEdgeAt_renderLine (e : DotTok × DotTok) (he : goodEdgeLine e)
    (x : Text) :
    matchEdgeAt (renderEdgeLine e ++ x) =
      some (e.1.name, e.2.name, ';' :: x) := by
  obtain ⟨h1, h2⟩ := he
  have hshape : renderEdgeLine e ++ x =
      e.1.render ++ (' ' :: '-' :: '>' :: ' ' :: (e.2.render ++ ';' :: x)) := by
    simp [renderEdgeLine, s2l, List.append_assoc]
  have hmt1 := matchToken_render e.1 h1
    (' ' :: '-' :: '>' :: ' ' :: (e.2.render ++ ';' :: x)) rfl
  have hmt2 := matchToken_render e.2 h2 (';' :: x) rfl
  rw [hshape]
  simp only [matchEdgeAt, hmt1]
  rw [dropWhile_isSp_sp_cons, dropWhile_isSp_dash]
  show (match matchToken ((' ' :: (e.2.render ++ ';' :: x)).dropWhile isSp) with
    | none => none
    | some (t2, r5) => some (e.1.name, t2, r5)) =
    some (e.1.name, e.2.name, ';' :: x)
  rw [dropWhile_isSp_sp_cons, dropWhile_isSp_render e.2 h2, hmt2]

theorem findEdgesAux_congr (n : Nat) : ∀ (l : Text) (f1 f2 : Nat),
    l.length ≤ n → l.length ≤ f1 → l.length ≤ f2 →
    findEdgesAux f1 l = findEdgesAux f2 l := by
  induction n with
  | zero =>
    intro l f1 f2 hn _ _
    have hz : l = [] := by
      cases l with
      | nil => rfl
      | cons c cs => simp at hn
    subst hz
    cases f1 <;> cases f2 <;> rfl
  | succ n ih =>
    intro l f1 f2 hn h1 h2
    cases l with
    | nil => cases f1 <;> cases f2 <;> rfl
    | cons c cs =>
      simp only [List.length_cons] at hn h1 h2
      obtain ⟨f1p, rfl⟩ : ∃ k, f1 = k + 1 := ⟨f1 - 1, by omega⟩
      obtain ⟨f2p, rfl⟩ : ∃ k, f2 = k + 1 := ⟨f2 - 1, by omega⟩
      simp only [findEdgesAux]
      cases hm : matchEdgeAt (c :: cs) with
      | some v =>
        obtain ⟨t1, t2, rest⟩ := v
        have hr := matchEdgeAt_rest_lt _ _ _ _ hm
        simp only [List.length_cons] at hr
        show (t1, t2) :: findEdgesAux f1p rest =
          (t1, t2) :: findEdgesAux f2p rest
        rw [ih rest f1p f2p (by omega) (by omega) (by omega)]
      | none =>
        show findEdgesAux f1p cs = findEdgesAux f2p cs
        exact ih cs f1p f2p (by omega) (by omega) (by omega)

theorem findEdgesAux_step_some (fuel : Nat) (c : Char) (cs t1 t2 rest : Text)
    (hm : matchEdgeAt (c :: cs) = some (t1, t2, rest)) :
    findEdgesAux (fuel + 1) (c :: cs) = (t1, t2) :: findEdgesAux fuel rest := by
  simp only [findEdgesAux, hm]

theorem findEdgesAux_step_none (fuel : Nat) (c : Char) (cs : Text)
    (hm : matchEdgeAt (c :: cs) = none) :
    findEdgesAux (fuel + 1) (c :: cs) = findEdgesAux fuel cs := by
  simp only [findEdgesAux, hm]

theorem renderEdgeLine_length (e : DotTok × DotTok) :
    (renderEdgeLine e).length =
      e.1.render.length + e.2.render.length + 5 := by
  simp [renderEdgeLine, s2l, List.length_append]
  omega

theorem findEdges_cons_line (e : DotTok × DotTok) (he : goodEdgeLine e)
    (x : Text) :
    findEdges (renderEdgeLine e ++ x) =
      (e.1.name, e.2.name) :: findEdges x := by
  have hm := matchEdgeAt_renderLine e he x
  have hR := renderEdgeLine_length e
  have hL : (renderEdgeLine e ++ x).length =
      (renderEdgeLine e).length + x.length := List.length_append _ _
  cases hc : renderEdgeLine e ++ x with
  | nil =>
    rw [hc] at hL
    simp at hL
    omega
  | cons c cs =>
    rw [hc] at hm hL
    simp only [List.length_cons] at hL
    rw [findEdges, List.length_cons, findEdgesAux_step_some cs.length c cs
      _ _ _ hm]
    obtain ⟨m2, hm2⟩ : ∃ k, cs.length = k + 1 := ⟨cs.length - 1, by omega⟩
    rw [hm2, findEdgesAux_step_none m2 ';' x (matchEdgeAt_none_semi x)]
    congr 1
    rw [findEdges]
    exact findEdgesAux_congr m2 x m2 x.length (by omega) (by omega)
      (Nat.le_refl _)

theorem findEdges_nl_cons (x : Text) : findEdges ('\n' :: x) = findEdges x := by
  rw [findEdges, List.length_cons,
    findEdgesAux_step_none x.length '\n' x (matchEdgeAt_none_nl x)]
  rfl

/-- The edge findall on a text of one edge statement per line returns
exactly the per-line endpoint pairs, in line order. -/
theorem findEdges_joined (ls : List (DotTok × DotTok))
    (hg : ∀ e ∈ ls, goodEdgeLine e) :
    findEdges (joinNl (ls.map renderEdgeLine)) =
      ls.map (fun e => (e.1.name, e.2.name)) := by
  induction ls with
  | nil => rfl
  | cons e rest ih =>
    have hge := hg e (by simp)
    have hgr : ∀ q ∈ rest, goodEdgeLine q := fun q hq => hg q (by simp [hq])
    cases rest with
    | nil =>
      show findEdges (renderEdgeLine e) = [(e.1.name, e.2.name)]
      have := findEdges_cons_line e hge []
      rw [List.append_nil] at this
      rw [this]
      rfl
    | cons e2 rest2 =>
      rw [List.map_cons,
        joinNl_cons (renderEdgeLine e) ((e2 :: rest2).map renderEdgeLine)
          (by simp),
        findEdges_cons_line e hge _, findEdges_nl_cons, ih hgr]
      simp

theorem matchQuotedDef_mem (l q r : Text)
    (hm : matchQuotedDef l = some (q, r)) : '[' ∈ l := by
  simp only [matchQuotedDef] at hm
  split at hm
  · rename_i cs heq0
    split at hm
    · exact absurd hm (by simp)
    · split at hm
      · split at hm
        · rename_i r3 heq3
          have h1 : '[' ∈ (cs.drop
              ((cs.takeWhile (fun x => x != '\x22')).length + 1)).dropWhile isSp := by
            rw [heq3]
            simp
          have h2 : '[' ∈ cs.drop
              ((cs.takeWhile (fun x => x != '\x22')).length + 1) :=
            (List.dropWhile_sublist isSp).mem h1
          have h3 : '[' ∈ cs := (List.drop_sublist _ _).mem h2
          have h4 : '[' ∈ l.dropWhile isSp := by
            rw [heq0]
            simp [h3]
          exact (List.dropWhile_sublist isSp).mem h4
        · exact absurd hm (by simp)
      · exact absurd hm (by simp)
  · exact absurd hm (by simp)

theorem matchWordDef_mem (l w r : Text)
    (hm : matchWordDef l = some (w, r)) : '[' ∈ l := by
  simp only [matchWordDef] at hm
  split at hm
  · exact absurd hm (by simp)
  · split at hm
    · rename_i r3 heq3
      have h1 : '[' ∈ ((l.dropWhile isSp).drop
          ((l.dropWhile isSp).takeWhile isWordCh).length).dropWhile isSp := by
        rw [heq3]
        simp
      have h2 := (List.dropWhile_sublist isSp).mem h1
      have h3 := (List.drop_sublist _ _).mem h2
      exact (List.dropWhile_sublist isSp).mem h3
    · exact absurd hm (by simp)

theorem scanQuotedDefsAux_nil (fuel : Nat) (l : Text) (b : Bool)
    (h : '[' ∉ l) : scanQuotedDefsAux fuel l b = [] := by
  induction fuel generalizing l b with
  | zero => rfl
  | succ fuel ih =>
    cases l with
    | nil => rfl
    | cons c cs =>
      simp only [List.mem_cons, not_or] at h
      have hnone : matchQuotedDef (c :: cs) = none := by
        cases hm : matchQuotedDef (c :: cs) with
        | none => rfl
        | some v =>
          exfalso
          have hmem := matchQuotedDef_mem _ v.1 v.2 (by rw [hm])
          simp only [List.mem_cons] at hmem
          rcases hmem with h1 | h1
          · exact h.1 h1
          · exact h.2 h1
      simp only [scanQuotedDefsAux, hnone, ite_self]
      exact ih cs (c == '\n') h.2

theorem scanWordDefsAux_nil (fuel : Nat) (l : Text) (b : Bool)
    (h : '[' ∉ l) : scanWordDefsAux fuel l b = [] := by
  induction fuel generalizing l b with
  | zero => rfl
  | succ fuel ih =>
    cases l with
    | nil => rfl
    | cons c cs =>
      simp only [List.mem_cons, not_or] at h
      have hnone : matchWordDef (c :: cs) = none := by
        cases hm : matchWordDef (c :: cs) with
        | none => rfl
        | some v =>
          exfalso
          have hmem := matchWordDef_mem _ v.1 v.2 (by rw [hm])
          simp only [List.mem_cons] at hmem
          rcases hmem with h1 | h1
          · exact h.1 h1
          · exact h.2 h1
      simp only [scanWordDefsAux, hnone, ite_self]
      exact ih cs (c == '\n') h.2

theorem mem_joinNl (c : Char) (ls : List Text) (h : c ∈ joinNl ls) :
    c = '\n' ∨ ∃ l ∈ ls, c ∈ l := by
  induction ls with
  | nil => simp [joinNl] at h
  | cons l rest ih =>
    cases rest with
    | nil =>
      exact Or.inr ⟨l, by simp, h⟩
    | cons m ms =>
      rw [joinNl_cons l (m :: ms) (by simp)] at h
      rcases List.mem_append.mp h with h1 | h1
      · exact Or.inr ⟨l, by simp, h1⟩
      · rcases List.mem_cons.mp h1 with h2 | h2
        · exact Or.inl h2
        · rcases ih h2 with h3 | ⟨l2, hl2, hc2⟩
          · exact Or.inl h3
          · exact Or.inr ⟨l2, by simp [hl2], hc2⟩

theorem bracket_not_mem_render (t : DotTok) (ht : goodTok t) :
    '[' ∉ t.render := by
  cases t with
  | word w =>
    intro hm
    have := ht.2 '[' hm
    exact absurd this (by decide)
  | quot q =>
    intro hm
    simp only [DotTok.render] at hm
    rcases List.mem_cons.mp hm with h1 | h1
    · exact absurd h1 (by decide)
    · rcases List.mem_append.mp h1 with h2 | h2
      · exact (ht.2 '[' h2).2.2 rfl
      · exact absurd (List.mem_singleton.mp h2) (by decide)


theorem bracket_not_mem_joined (ls : List (DotTok × DotTok))
    (hg : ∀ e ∈ ls, goodEdgeLine e) :
    '[' ∉ joinNl (ls.map renderEdgeLine) := by
  intro hmem
  rcases mem_joinNl '[' _ hmem with h1 | ⟨line, hline, hc⟩
  · exact absurd h1 (by decide)
  · simp only [List.mem_map] at hline
    obtain ⟨e, he, rfl⟩ := hline
    have hge := hg e he
    simp only [renderEdgeLine, List.mem_append, List.mem_singleton] at hc
    rcases hc with ((h2 | h2) | h2) | h2
    · exact bracket_not_mem_render e.1 hge.1 h2
    · exact absurd h2 (by decide)
    · exact bracket_not_mem_render e.2 hge.2 h2
    · exact absurd h2 (by decide)

/-- C9: node/edge counting is order-independent for texts consisting of
one edge statement per line: permuting the lines yields the same node
count and the same edge count. -/
theorem c9_count_perm (ls lsp : List (DotTok × DotTok))
    (hperm : List.Perm ls lsp) (hg : ∀ e ∈ ls, goodEdgeLine e) :
    countNodesEdges (joinNl (ls.map renderEdgeLine)) =
      countNodesEdges (joinNl (lsp.map renderEdgeLine)) := by
  have hg2 : ∀ e ∈ lsp, goodEdgeLine e := fun e he =>
    hg e (hperm.symm.subset he)
  have hb1 := bracket_not_mem_joined ls hg
  have hb2 := bracket_not_mem_joined lsp hg2
  simp only [countNodesEdges, scanQuotedDefs, scanWordDefs]
  rw [findEdges_joined ls hg, findEdges_joined lsp hg2,
    scanQuotedDefsAux_nil _ _ _ hb1, scanQuotedDefsAux_nil _ _ _ hb2,
    scanWordDefsAux_nil _ _ _ hb1, scanWordDefsAux_nil _ _ _ hb2]
  simp only [List.filter_nil, List.nil_append]
  have hpnames := hperm.map (fun e : DotTok × DotTok => (e.1.name, e.2.name))
  have hpflat := hpnames.flatMap_right
    (fun p : Text × Text => [p.1, p.2])
  have hpfilter := hpflat.filter
    (fun w => !w.isEmpty && keywordDigitOk w)
  have hdedup := hpfilter.dedup
  rw [Prod.mk.injEq]
  exact ⟨hdedup.length_eq, by simp [hperm.length_eq]⟩

/-- Witness for C9: the two-line text `a -> b; / "x y" -> a;` against
its reversal. -/
theorem c9_count_perm_witness :
    List.Perm [(DotTok.word (s2l "a"), DotTok.word (s2l "b")),
        (DotTok.quot (s2l "x y"), DotTok.word (s2l "a"))]
      [(DotTok.quot (s2l "x y"), DotTok.word (s2l "a")),
        (DotTok.word (s2l "a"), DotTok.word (s2l "b"))] ∧
    countNodesEdges (joinNl
      ([(DotTok.word (s2l "a"), DotTok.word (s2l "b")),
        (DotTok.quot (s2l "x y"), DotTok.word (s2l "a"))].map
        renderEdgeLine)) =
    countNodesEdges (joinNl
      ([(DotTok.quot (s2l "x y"), DotTok.word (s2l "a")),
        (DotTok.word (s2l "a"), DotTok.word (s2l "b"))].map
        renderEdgeLine)) := by
  refine ⟨by decide, ?_⟩
  exact c9_count_perm _ _ (by decide) (by decide)

end CodeAtlas
